import Mathlib

/-!
Verification of an external merge sort (splitter / chunk sorters / sort
scheduler / k-way merger / hierarchical merge coordinator) against its
design document.  The JS source is embedded shallowly: file contents are
line lists, machine strings are `String` compared by their codepoint
sequences, the event-driven worker scheduler is a small state machine
driven by an explicit completion order, and async functions that can fail
return `Except`.
-/

namespace ExtSort

/-! ### Line comparison

`merger.js`, `sorter.js` and `sorter-worker.js` all compare whole lines with
the JS `<` / `>` operators, i.e. lexicographically by code unit (codepoint,
for the material handled here): no locale collation. -/

/-- Lexicographic strict comparison of character sequences: the semantics of
the JS `<` operator on strings. -/
def lexLt : List Char → List Char → Bool
  | [], [] => false
  | [], _ :: _ => true
  | _ :: _, [] => false
  | a :: as, b :: bs => if a < b then true else if b < a then false else lexLt as bs

/-- JS `a < b` on whole lines. -/
def lineLt (a b : String) : Bool := lexLt a.data b.data

/-- `a ≤ b` under the codepoint order (not `b < a`). -/
def lineLe (a b : String) : Bool := !(lineLt b a)

/-- A line list in non-decreasing codepoint order. -/
def sortedLines (l : List String) : Prop :=
  List.Pairwise (fun a b => lineLe a b = true) l

/-- The comparator `(a, b) => { if (a < b) return -1; if (a > b) return 1;
return 0 }` shared (textually) by `sorter.js` and `sorter-worker.js`. -/
def strCmp (a b : String) : Int :=
  if lineLt a b then -1 else if lineLt b a then 1 else 0

/-- `Array.prototype.sort` with `strCmp`: the input sorted (stably) under the
codepoint order, modelled by insertion sort. -/
def jsSortLines (lines : List String) : List String :=
  List.insertionSort (fun a b => lineLe a b = true) lines

/-! ### The chunk sorters (`sorter-worker.js` `sortChunk`, `sorter.js`
`Sorter.sortChunk`) -/

/-- Whitespace characters removed by JS `String.prototype.trim` (the ASCII
ones; the unicode additions never matter for the lines considered here). -/
def jsWhitespace (c : Char) : Bool :=
  c = ' ' || c = '\t' || c = '\n' || c = '\r' || c = '\x0b' || c = '\x0c'

/-- `line.trim().length > 0`: the line has some non-whitespace character. -/
def nonBlank (s : String) : Bool := s.data.any (fun c => !jsWhitespace c)

/-- Lines of the sorted chunk file produced by the worker `sortChunk`: filters
lines empty after trimming, sorts with `strCmp`, writes
`sortedLines.join("\n") + "\n"` — when nothing survives the filter that file
is a single newline, which reads back as one empty line. -/
def workerSortChunkLines (lines : List String) : List String :=
  let sorted := jsSortLines (lines.filter nonBlank)
  if sorted.isEmpty then [""] else sorted

/-- Lines of the sorted chunk file produced by the inline `Sorter.sortChunk`:
every line of the chunk is pushed (no blank filtering), sorted with the same
comparator (`Sorter.sortLines`) and written one per `line + "\n"`. -/
def sorterSortChunkLines (lines : List String) : List String := jsSortLines lines

/-! ### The sorted-chunk path (`chunkPath.replace(".txt", ".sorted.txt")`) -/

/-- JS `String.prototype.replace` with a plain-string pattern: replace the
first occurrence only; no occurrence leaves the string unchanged.  (Both
callers pass the non-empty pattern ".txt", so the empty-pattern corner of the
JS operator is irrelevant.) -/
def firstReplace : List Char → List Char → List Char → List Char
  | [], _, _ => []
  | c :: cs, pat, rep =>
    if pat.isPrefixOf (c :: cs) then rep ++ (c :: cs).drop pat.length
    else c :: firstReplace cs pat rep

/-- `s.replace(pat, rep)` for string patterns. -/
def jsReplaceFirst (s pat rep : String) : String :=
  ⟨firstReplace s.data pat.data rep.data⟩

/-- The path the sorted chunk is written to and that `sortChunk` returns. -/
def sortedChunkPathOf (chunkPath : String) : String :=
  jsReplaceFirst chunkPath ".txt" ".sorted.txt"

/-- The pattern `pat` occurs in `s` at character index `i`. -/
def occursAt (s pat : String) (i : Nat) : Prop :=
  pat.data.isPrefixOf (s.data.drop i) = true

instance decEqExcept {ε α : Type} [DecidableEq ε] [DecidableEq α] :
    DecidableEq (Except ε α) := fun a b =>
  match a, b with
  | .error e1, .error e2 =>
    if h : e1 = e2 then .isTrue (h ▸ rfl) else .isFalse (fun hh => h (by injection hh))
  | .error _, .ok _ => .isFalse (fun hh => Except.noConfusion hh)
  | .ok _, .error _ => .isFalse (fun hh => Except.noConfusion hh)
  | .ok a1, .ok a2 =>
    if h : a1 = a2 then .isTrue (h ▸ rfl) else .isFalse (fun hh => h (by injection hh))

/-- A file system keyed by path, holding line lists. -/
def FileSys : Type := String → Option (List String)

/-- `fs.writeFileSync`. -/
def fsWrite (fs : FileSys) (p : String) (c : List String) : FileSys :=
  fun q => if q = p then some c else fs q

/-- `fs.unlinkSync` (the best-effort delete, succeeding here). -/
def fsUnlink (fs : FileSys) (p : String) : FileSys :=
  fun q => if q = p then none else fs q

/-- File-system effect of the worker `sortChunk(chunkPath)`: read the chunk,
write the sorted lines to `chunkPath.replace(".txt", ".sorted.txt")`, then
delete the original chunk file; the replaced path is returned. -/
def sortChunkRun (fs : FileSys) (chunkPath : String) : FileSys × String :=
  let lines := (fs chunkPath).getD []
  let sortedChunkPath := sortedChunkPathOf chunkPath
  let fs2 := fsWrite fs sortedChunkPath (workerSortChunkLines lines)
  (fsUnlink fs2 chunkPath, sortedChunkPath)

/-! ### The `MinHeap` of `merger.js`

The heap is a JS array with `siftUp`/`siftDown` over parent index
`(i-1)/2` and children `2i+1` / `2i+2`.  It is modelled as a `List` with
array reads `hget` and in-place writes `List.set`; the sift loops are given
explicit fuel (any fuel at least the traversed depth gives the loop's exact
behaviour, and the wrappers pass enough). -/

/-- `heap[i]` (reads are always in bounds in the algorithm). -/
def hget [Inhabited α] (h : List α) (i : Nat) : α := h.getD i default

/-- `[heap[i], heap[j]] = [heap[j], heap[i]]`. -/
def hswap [Inhabited α] (h : List α) (i j : Nat) : List α :=
  (h.set i (hget h j)).set j (hget h i)

/-- The `_siftUp` while-loop: bubble index `i` towards the root while smaller
than its parent. -/
def siftUpF [Inhabited α] (lt : α → α → Bool) : Nat → List α → Nat → List α
  | 0, h, _ => h
  | fuel + 1, h, i =>
    if i = 0 then h
    else
      let p := (i - 1) / 2
      if lt (hget h i) (hget h p) then siftUpF lt fuel (hswap h i p) p else h

/-- `_siftUp(index)` (the parent index strictly decreases, so `i + 1` steps
always suffice). -/
def siftUp [Inhabited α] (lt : α → α → Bool) (h : List α) (i : Nat) : List α :=
  siftUpF lt (i + 1) h i

/-- `insert(element)`: push, then sift up from the last index. -/
def heapInsert [Inhabited α] (lt : α → α → Bool) (h : List α) (x : α) : List α :=
  siftUp lt (h ++ [x]) h.length

/-- The recursive `_siftDown`: swap index `i` with its smallest child while
one is smaller. -/
def siftDownF [Inhabited α] (lt : α → α → Bool) : Nat → List α → Nat → List α
  | 0, h, _ => h
  | fuel + 1, h, i =>
    let l := 2 * i + 1
    let r := 2 * i + 2
    let s1 := if l < h.length && lt (hget h l) (hget h i) then l else i
    let s2 := if r < h.length && lt (hget h r) (hget h s1) then r else s1
    if s2 = i then h else siftDownF lt fuel (hswap h i s2) s2

/-- `_siftDown(index)` (the index strictly increases and stays below the
length, so `h.length` steps always suffice). -/
def siftDown [Inhabited α] (lt : α → α → Bool) (h : List α) (i : Nat) : List α :=
  siftDownF lt h.length h i

/-- The `smallest` selection of one `_siftDown` pass: index `i` or whichever
of its in-range children compares strictly smaller. -/
def childSel [Inhabited α] (lt : α → α → Bool) (h : List α) (i : Nat) : Nat :=
  let s1 := if 2 * i + 1 < h.length && lt (hget h (2 * i + 1)) (hget h i) then 2 * i + 1 else i
  if 2 * i + 2 < h.length && lt (hget h (2 * i + 2)) (hget h s1) then 2 * i + 2 else s1

/-- `extractMin()`: take the root, move the popped last element to the root,
sift it down.  Returns `none` on the empty heap. -/
def extractMin [Inhabited α] (lt : α → α → Bool) : List α → Option α × List α
  | [] => (none, [])
  | [x] => (some x, [])
  | x :: y :: t =>
    let last := (y :: t).getLastD x
    let popped := (x :: y :: t).dropLast
    (some x, siftDown lt (popped.set 0 last) 0)

/-- The binary min-heap shape invariant: no element is smaller than its
parent. -/
def IsHeap [Inhabited α] (lt : α → α → Bool) (h : List α) : Prop :=
  ∀ i, i < h.length → 0 < i → lt (hget h i) (hget h ((i - 1) / 2)) = false

/-! ### The k-way merge (`Merger._kWayMerge`) -/

/-- A reader handle: source chunk index (standing for the source path),
current line (`null` when exhausted) and the unread remainder of the
stream. -/
structure Rdr where
  idx : Nat
  current : Option String
  rest : List String
deriving DecidableEq

instance : Inhabited Rdr := ⟨⟨0, none, []⟩⟩

/-- The heap comparator of `_kWayMerge`: `null` currents sort last, otherwise
compare the current lines with the codepoint comparator. -/
def rdrCmp (a b : Rdr) : Int :=
  match a.current, b.current with
  | none, none => 0
  | none, some _ => 1
  | some _, none => -1
  | some x, some y => strCmp x y

/-- `compareFn(a, b) < 0`, the only use the heap makes of the comparator. -/
def rdrLt (a b : Rdr) : Bool := rdrCmp a b < 0

/-- Priming a reader with its first line (`reader.reader.next()` at start-up):
an empty stream is exhausted immediately (`done`, `current = null`). -/
def primeReader : Nat × List String → Rdr
  | (i, []) => { idx := i, current := none, rest := [] }
  | (i, l :: ls) => { idx := i, current := some l, rest := ls }

/-- Build the initial heap: readers in chunk order, inserting only those with
a current line (`!reader.done && reader.current !== null`). -/
def initHeap (chunks : List (List String)) : List Rdr :=
  (chunks.enum.map primeReader).foldl
    (fun h r => if r.current.isSome then heapInsert rdrLt h r else h) []

/-- Advancing a reader after its line is emitted (`reader.reader.next()`). -/
def advance (r : Rdr) : Rdr :=
  match r.rest with
  | [] => { r with current := none, rest := [] }
  | l :: ls => { r with current := some l, rest := ls }

/-- The line written for an extracted reader: `reader.current + "\n"`.  (JS
would coerce a `null` current to the text "null"; the merge invariant keeps
currents non-null.) -/
def emittedLine (r : Rdr) : String := r.current.getD "null"

/-- One iteration of the merge loop: extract the minimum, write its current
line, advance it, and re-insert it only if it still has a line. -/
def mergeStep (h : List Rdr) : Option (String × List Rdr) :=
  match extractMin rdrLt h with
  | (none, _) => none
  | (some r, h1) =>
    let r2 := advance r
    some (emittedLine r, if r2.current.isSome then heapInsert rdrLt h1 r2 else h1)

/-- The `while (heap.size() > 0)` loop, with fuel. -/
def mergeLoopF : Nat → List Rdr → List String
  | 0, _ => []
  | fuel + 1, h =>
    match mergeStep h with
    | none => []
    | some (out, h2) => out :: mergeLoopF fuel h2

/-- Fuel under which the loop always drains: one unit per line plus one per
chunk. -/
def mergeFuel (chunks : List (List String)) : Nat :=
  (chunks.map (fun c => c.length + 1)).sum

/-- The sequence of lines `_kWayMerge` writes to the output file. -/
def mergeLines (chunks : List (List String)) : List String :=
  mergeLoopF (mergeFuel chunks) (initHeap chunks)

/-- The `linesWritten` counter (incremented once per written line; used only
for the progress log and the completion log). -/
def mergeCountF : Nat → List Rdr → Nat → Nat
  | 0, _, n => n
  | fuel + 1, h, n =>
    match mergeStep h with
    | none => n
    | some (_, h2) => mergeCountF fuel h2 (n + 1)

/-- The value of `linesWritten` when the merge loop finishes. -/
def linesWritten (chunks : List (List String)) : Nat :=
  mergeCountF (mergeFuel chunks) (initHeap chunks) 0

/-- The resolution value of the `async` `_kWayMerge`: the function body has no
`return` statement, so its promise resolves with `undefined` (its doc comment
says `@returns {Promise<void>}`). -/
def kWayMergeReturnValue : Option Nat := none

/-- `_kWayMerge(sortedChunks, outputFile)`: all chunk files exist in this
model, so the pre-flight keeps them all; with zero chunks it throws
"no valid chunk files found for merging", otherwise it writes the merged
lines and resolves with no value. -/
def kWayMergeRun (chunks : List (List String)) :
    Except String (List String × Option Nat) :=
  if chunks.isEmpty then .error "no valid chunk files found for merging"
  else .ok (mergeLines chunks, kWayMergeReturnValue)

/-! ### The hierarchical merge (`Merger._hierarchicalMerge`)

One level slices the current chunk list into groups of `maxOpenFiles`; a
trailing singleton group is passed through unchanged, every other group is
merged into a single new chunk (`merged_level{L}_group{G}.txt`).  The level
transformation is shared between the path-level model (for the coordinator
claims) and the content-level model (for the pipeline): only the
group-merging function differs. -/

/-- One level of the `for (let i = 0; i < currentLevel.length;
i += maxOpenFiles)` loop, from group ordinal `g`.  Structural fuel: the list
shrinks by `m ≥ 1` per step, so `length` steps suffice. -/
def levelStepAuxF (m : Nat) (mergeGroup : Nat → List α → α) :
    Nat → Nat → List α → List α
  | _, _, [] => []
  | 0, _, _ :: _ => []
  | fuel + 1, g, x :: xs =>
    let cur := x :: xs
    if cur.length ≤ m then (if cur.length = 1 then cur else [mergeGroup g cur])
    else mergeGroup g (cur.take m) :: levelStepAuxF m mergeGroup fuel (g + 1) (xs.drop (m - 1))

/-- One full merge level. -/
def levelStep (m : Nat) (mergeGroup : Nat → List α → α) (lvl : List α) : List α :=
  levelStepAuxF m mergeGroup lvl.length 0 lvl

/-- The `while (currentLevel.length > 1)` loop; returns the final level and
the number of levels performed (`levelIndex`). -/
def hierLoopF (m : Nat) (mergeGroup : Nat → Nat → List α → α) :
    Nat → List α → Nat → List α × Nat
  | 0, lvl, li => (lvl, li)
  | fuel + 1, lvl, li =>
    if 1 < lvl.length then
      hierLoopF m mergeGroup fuel (levelStep m (mergeGroup (li + 1)) lvl) (li + 1)
    else (lvl, li)

/-- `_hierarchicalMerge` level structure (`lvl.length` fuel is enough for any
`m ≥ 2`). -/
def hierarchicalMerge (m : Nat) (mergeGroup : Nat → Nat → List α → α)
    (lvl : List α) : List α × Nat :=
  hierLoopF m mergeGroup lvl.length lvl 0

/-- Name of an intermediate merged chunk
(`path.join(tempDir, "merged_level{L}_group{G}.txt")`). -/
def mergedName (tempDir : String) (levelIndex g : Nat) : String :=
  tempDir ++ "/merged_level" ++ toString levelIndex ++ "_group" ++ toString g ++ ".txt"

/-- The path-level hierarchical merge: which files exist at the end, and how
many levels ran. -/
def hierarchicalMergePaths (m : Nat) (tempDir : String) (lvl : List String) :
    List String × Nat :=
  hierarchicalMerge m (fun li g _ => mergedName tempDir li g) lvl

/-- The content-level hierarchical merge with the default `maxOpenFiles`. -/
def hierMergeContents (sortedChunks : List (List String)) :
    List (List String) × Nat :=
  hierarchicalMerge 100 (fun _ _ group => mergeLines group) sortedChunks

/-- `Merger.merge` with default options: k-way merge when at most
`maxOpenFiles = 100` chunks, hierarchical otherwise (whose final remaining
file is renamed to the output path). -/
def mergerMerge (sortedChunks : List (List String)) : Except String (List String) :=
  if sortedChunks.length ≤ 100 then (kWayMergeRun sortedChunks).map Prod.fst
  else .ok ((hierMergeContents sortedChunks).1.headD [])

/-! ### The splitter (`splitter.js`) -/

/-- `Buffer.byteLength(line + "\n")`. -/
def lineSize (l : String) : Nat := l.utf8ByteSize + 1

/-- The accumulated byte size of a buffered chunk. -/
def chunkWeight (c : List String) : Nat := (c.map lineSize).sum

/-- The `for await (const line of rl)` loop of `Splitter.split`: append each
line to the buffer, add its size, and flush the buffer as a chunk once the
running size reaches the chunk-size threshold; flush any non-empty remainder
at end of input. -/
def splitLoop (chunkSize : Nat) : List String → List String → Nat → List (List String)
  | [], buf, _ => if buf.isEmpty then [] else [buf]
  | l :: ls, buf, cur =>
    let buf2 := buf ++ [l]
    let cur2 := cur + lineSize l
    if chunkSize ≤ cur2 then buf2 :: splitLoop chunkSize ls [] 0
    else splitLoop chunkSize ls buf2 cur2

/-- `Splitter.split`, as the list of chunk line-lists in creation order. -/
def splitChunks (chunkSize : Nat) (lines : List String) : List (List String) :=
  splitLoop chunkSize lines [] 0

/-- The derived per-chunk target:
`Math.floor(this.maxMemoryBytes * 0.8)`. -/
def chunkSizeBytes (maxMemoryBytes : Nat) : Nat := maxMemoryBytes * 4 / 5

/-! ### The sort scheduler (`Sorter.sortChunks`, parallel mode)

The worker pool is event-driven; its behaviour is a deterministic function of
the order in which busy workers deliver their completion messages, so the
model is a state machine folded over an explicit completion order.  Worker
results (sorted chunk paths) are represented by the chunk index they came
from. -/

/-- A `workerPool` slot: its `busy` flag and the chunk index the running
worker was given (meaningful while busy). -/
structure WorkerSlot where
  busy : Bool
  assigned : Nat

/-- The mutable state of `sortChunks`: the pool, `completedChunks`, the
`results` array and the promise's resolution value (once `resolve` ran). -/
structure SchedState where
  workers : List WorkerSlot
  completedChunks : Nat
  results : List (Option Nat)
  resolvedWith : Option (List (Option Nat))

/-- JS `results[chunkIndex] = v`: extends the array with holes when written
past the end. -/
def jsArraySet (l : List (Option Nat)) (i : Nat) (v : Nat) : List (Option Nat) :=
  if i < l.length then l.set i (some v)
  else l ++ List.replicate (i - l.length) none ++ [some v]

/-- `workerPool.find((w) => !w.busy)`. -/
def findFreeWorker (ws : List WorkerSlot) : Option Nat :=
  ws.findIdx? (fun w => !w.busy)

/-- `processNextChunk()`: resolve once all chunks are completed; otherwise
hand `chunkFiles[completedChunks]` to the first free worker, if any. -/
def processNextChunk (n : Nat) (st : SchedState) : SchedState :=
  if st.completedChunks = n then
    { st with
      resolvedWith := match st.resolvedWith with
        | some r => some r
        | none => some st.results }
  else
    match findFreeWorker st.workers with
    | none => st
    | some w =>
      let chunkIndex := st.completedChunks
      if n ≤ chunkIndex then st
      else { st with workers := st.workers.set w { busy := true, assigned := chunkIndex } }

/-- The `worker.on("message")` handler for a successful sort by worker `w`:
record the result in the slot of the chunk the worker was assigned, bump
`completedChunks`, free the worker, and call `processNextChunk`. -/
def workerMessage (n : Nat) (st : SchedState) (w : Nat) : SchedState :=
  match st.workers[w]? with
  | none => st
  | some slot =>
    if slot.busy then
      processNextChunk n
        { workers := st.workers.set w { slot with busy := false }
          completedChunks := st.completedChunks + 1
          results := jsArraySet st.results slot.assigned slot.assigned
          resolvedWith := st.resolvedWith }
    else st

/-- Apply a function `k` times. -/
def applyN (f : α → α) : Nat → α → α
  | 0, a => a
  | k + 1, a => applyN f k (f a)

/-- The synchronous start-up loop
`for (let i = 0; i < maxWorkers && i < chunkFiles.length; i++)
processNextChunk()` from the empty pool (no completion can arrive during
it). -/
def schedInit (maxWorkers n : Nat) : SchedState :=
  applyN (processNextChunk n) (min maxWorkers n)
    { workers := List.replicate maxWorkers { busy := false, assigned := 0 }
      completedChunks := 0
      results := []
      resolvedWith := none }

/-- Run the scheduler under a given completion order (list of worker ids
whose messages arrive, in order). -/
def runSched (maxWorkers n : Nat) (completions : List Nat) : SchedState :=
  completions.foldl (workerMessage n) (schedInit maxWorkers n)

/-! ### Pipelines (`externalSort` = split, sort chunks, merge) -/

/-- The sequential chunk-sorting path of `sortChunks` (taken whenever
`useWorkers` is false or there is at most one chunk): each chunk through the
inline `Sorter.sortChunk`, in order. -/
def sortChunksSeq (chunks : List (List String)) : List (List String) :=
  chunks.map sorterSortChunkLines

/-- `externalSort` along the sequential sorting path. -/
def externalSortSeqModel (chunkSize : Nat) (lines : List String) :
    Except String (List String) :=
  mergerMerge (sortChunksSeq (splitChunks chunkSize lines))

/-- `externalSort` with parallel chunk sorting under a given worker completion
order: split, run the scheduler, sort the chunks the workers were actually
given, and merge the chunks named by the resolution value of the `sortChunks`
promise (array holes are skipped by the merger's pre-flight, since
`fs.access(undefined)` rejects). -/
def pipelinePar (chunkSize maxWorkers : Nat) (completions : List Nat)
    (lines : List String) : Except String (List String) :=
  let chunks := splitChunks chunkSize lines
  let st := runSched maxWorkers chunks.length completions
  match st.resolvedWith with
  | none => .error "sortChunks never resolved"
  | some arr =>
    let sortedChunks := arr.filterMap
      (fun o => o.map (fun i => workerSortChunkLines (chunks.getD i [])))
    mergerMerge sortedChunks

/-- A well-formed reader during the merge: current line present, and the
stream it stands for (current line then rest) sorted. -/
def goodReader (r : Rdr) : Prop :=
  r.current.isSome = true ∧ sortedLines (r.current.getD "" :: r.rest)

/-- The k-way merge heap invariant: heap-shaped, every entry a live sorted
reader, and at most one entry per reader (source chunk indices pairwise
distinct). -/
def MergeInv (h : List Rdr) : Prop :=
  IsHeap rdrLt h ∧ (∀ r ∈ h, goodReader r) ∧ (h.map Rdr.idx).Nodup

instance decSortedLines (l : List String) : Decidable (sortedLines l) :=
  inferInstanceAs (Decidable (List.Pairwise (fun a b => lineLe a b = true) l))

instance decIsHeap [Inhabited α] (lt : α → α → Bool) (h : List α) :
    Decidable (IsHeap lt h) :=
  inferInstanceAs (Decidable (∀ i, i < h.length → 0 < i →
    lt (hget h i) (hget h ((i - 1) / 2)) = false))

instance decGoodReader (r : Rdr) : Decidable (goodReader r) :=
  inferInstanceAs
    (Decidable (r.current.isSome = true ∧ sortedLines (r.current.getD "" :: r.rest)))

instance decMergeInv (h : List Rdr) : Decidable (MergeInv h) :=
  inferInstanceAs
    (Decidable (IsHeap rdrLt h ∧ (∀ r ∈ h, goodReader r) ∧ (h.map Rdr.idx).Nodup))

instance decOccursAt (s pat : String) (i : Nat) : Decidable (occursAt s pat i) :=
  inferInstanceAs (Decidable (_ = true))

/-! ## Order properties of the comparators -/

theorem lexLt_nil_left (b bs) : lexLt [] (b :: bs) = true := rfl

theorem lexLt_nil_right (l : List Char) : lexLt l [] = false := by
  cases l <;> rfl

theorem lexLt_cons_iff {a b : Char} {as bs : List Char} :
    lexLt (a :: as) (b :: bs) = true ↔ a < b ∨ (a = b ∧ lexLt as bs = true) := by
  by_cases hab : a < b
  · simp [lexLt, hab]
  · by_cases hba : b < a
    · have hne : a ≠ b := ne_of_gt hba
      simp [lexLt, hab, hba, hne]
    · have heq : a = b := le_antisymm (not_lt.mp hba) (not_lt.mp hab)
      simp [lexLt, hab, hba, heq]

theorem lexLt_irrefl (a : List Char) : lexLt a a = false := by
  induction a with
  | nil => rfl
  | cons c cs ih => simp [lexLt, ih]

theorem lexLt_asymm : ∀ {a b : List Char}, lexLt a b = true → lexLt b a = false
  | [], [], h => by simp [lexLt] at h
  | [], _ :: _, _ => lexLt_nil_right _
  | _ :: _, [], h => by rw [lexLt_nil_right] at h; cases h
  | a :: as, b :: bs, h => by
    rw [Bool.eq_false_iff]
    intro h2
    rw [lexLt_cons_iff] at h h2
    rcases h with h | ⟨he, ht⟩
    · rcases h2 with h2 | ⟨he2, _⟩
      · exact absurd h2 (lt_asymm h)
      · rw [he2] at h; exact absurd h (lt_irrefl _)
    · rcases h2 with h2 | ⟨_, ht2⟩
      · rw [he] at h2; exact absurd h2 (lt_irrefl _)
      · rw [lexLt_asymm ht] at ht2; cases ht2

theorem lexLt_trans : ∀ {a b c : List Char},
    lexLt a b = true → lexLt b c = true → lexLt a c = true
  | _, b, [], _, h2 => by rw [lexLt_nil_right] at h2; cases h2
  | [], _, _ :: _, _, _ => rfl
  | _ :: _, [], _, h1, _ => by rw [lexLt_nil_right] at h1; cases h1
  | a :: as, b :: bs, c :: cs, h1, h2 => by
    rw [lexLt_cons_iff] at h1 h2 ⊢
    rcases h1 with h1 | ⟨he1, ht1⟩
    · rcases h2 with h2 | ⟨he2, _⟩
      · exact Or.inl (lt_trans h1 h2)
      · exact Or.inl (he2 ▸ h1)
    · rcases h2 with h2 | ⟨he2, ht2⟩
      · exact Or.inl (he1 ▸ h2)
      · exact Or.inr ⟨he1.trans he2, lexLt_trans ht1 ht2⟩

theorem lexLt_eq_of_both_not : ∀ {a b : List Char},
    lexLt a b = false → lexLt b a = false → a = b
  | [], [], _, _ => rfl
  | [], _ :: _, h1, _ => by rw [lexLt_nil_left] at h1; cases h1
  | _ :: _, [], _, h2 => by rw [lexLt_nil_left] at h2; cases h2
  | a :: as, b :: bs, h1, h2 => by
    rw [Bool.eq_false_iff] at h1 h2
    by_cases hab : a < b
    · exact absurd (lexLt_cons_iff.mpr (Or.inl hab)) h1
    · by_cases hba : b < a
      · exact absurd (lexLt_cons_iff.mpr (Or.inl hba)) h2
      · have heq : a = b := le_antisymm (not_lt.mp hba) (not_lt.mp hab)
        have t1 : lexLt as bs = false := by
          rw [Bool.eq_false_iff]
          intro hh
          exact h1 (lexLt_cons_iff.mpr (Or.inr ⟨heq, hh⟩))
        have t2 : lexLt bs as = false := by
          rw [Bool.eq_false_iff]
          intro hh
          exact h2 (lexLt_cons_iff.mpr (Or.inr ⟨heq.symm, hh⟩))
        rw [heq, lexLt_eq_of_both_not t1 t2]

theorem lexLt_negtrans {a b c : List Char}
    (h1 : lexLt a b = false) (h2 : lexLt b c = false) : lexLt a c = false := by
  cases hba : lexLt b a with
  | false => rw [lexLt_eq_of_both_not h1 hba]; exact h2
  | true =>
    cases hac : lexLt a c with
    | false => rfl
    | true => rw [lexLt_trans hba hac] at h2; cases h2

theorem lineLe_refl (a : String) : lineLe a a = true := by
  simp [lineLe, lineLt, lexLt_irrefl]

theorem lineLe_trans {a b c : String}
    (h1 : lineLe a b = true) (h2 : lineLe b c = true) : lineLe a c = true := by
  simp only [lineLe, lineLt, Bool.not_eq_true'] at *
  exact lexLt_negtrans h2 h1

theorem lineLe_total (a b : String) : lineLe a b = true ∨ lineLe b a = true := by
  simp only [lineLe, lineLt, Bool.not_eq_true']
  cases h1 : lexLt b.data a.data with
  | false => exact Or.inl rfl
  | true => exact Or.inr (lexLt_asymm h1)

theorem lineLe_of_not_lt {a b : String} (h : lineLt a b = false) : lineLe b a = true := by
  simp [lineLe, h]

instance lineLeTotal : IsTotal String (fun a b => lineLe a b = true) := ⟨lineLe_total⟩

instance lineLeTrans : IsTrans String (fun a b => lineLe a b = true) :=
  ⟨fun _ _ _ => lineLe_trans⟩

/-- What `compareFn(a, b) < 0` amounts to for reader entries. -/
theorem rdrLt_spec (a b : Rdr) :
    rdrLt a b = (match a.current, b.current with
      | none, _ => false
      | some _, none => true
      | some x, some y => lineLt x y) := by
  rcases a with ⟨i, ca, ra⟩
  rcases b with ⟨j, cb, rb⟩
  rcases ca with _ | x <;> rcases cb with _ | y <;>
    simp only [rdrLt, rdrCmp, strCmp] <;> try rfl
  by_cases hxy : lineLt x y
  · simp [hxy]
  · by_cases hyx : lineLt y x <;> simp [hxy, hyx]

theorem rdrLt_irrefl (a : Rdr) : rdrLt a a = false := by
  rw [rdrLt_spec]
  rcases ha : a.current with _ | x
  · rfl
  · simp [lineLt, lexLt_irrefl]

theorem rdrLt_asymm {a b : Rdr} (h : rdrLt a b = true) : rdrLt b a = false := by
  rw [rdrLt_spec] at h ⊢
  rcases ha : a.current with _ | x <;> rcases hb : b.current with _ | y <;>
      rw [ha, hb] at h <;> simp_all
  exact lexLt_asymm h

theorem rdrLt_trans {a b c : Rdr}
    (h1 : rdrLt a b = true) (h2 : rdrLt b c = true) : rdrLt a c = true := by
  rw [rdrLt_spec] at h1 h2 ⊢
  rcases ha : a.current with _ | x <;> rcases hb : b.current with _ | y <;>
      rcases hc : c.current with _ | z <;> rw [ha, hb] at h1 <;>
      rw [hb, hc] at h2 <;> simp_all
  exact lexLt_trans h1 h2

theorem rdrLt_negtrans {a b c : Rdr}
    (h1 : rdrLt a b = false) (h2 : rdrLt b c = false) : rdrLt a c = false := by
  rw [rdrLt_spec] at h1 h2 ⊢
  rcases ha : a.current with _ | x <;> rcases hb : b.current with _ | y <;>
      rcases hc : c.current with _ | z <;> rw [ha, hb] at h1 <;>
      rw [hb, hc] at h2 <;> simp_all
  exact lexLt_negtrans h1 h2
/-! ## Array-access lemmas for the heap model -/

theorem hget_eq_getElem [Inhabited α] (h : List α) (k : Nat) (hk : k < h.length) :
    hget h k = h[k] := by
  simp [hget, List.getD_eq_getElem?_getD, List.getElem?_eq_getElem hk]

theorem hget_set [Inhabited α] (l : List α) (a k : Nat) (x : α) :
    hget (l.set a x) k = if a = k ∧ a < l.length then x else hget l k := by
  simp only [hget, List.getD_eq_getElem?_getD, List.getElem?_set]
  by_cases h1 : a = k
  · subst h1
    by_cases h2 : a < l.length
    · simp [h2]
    · simp [h2, List.getElem?_eq_none (Nat.le_of_not_lt h2)]
  · simp [h1]

theorem hswap_length [Inhabited α] (h : List α) (i j : Nat) :
    (hswap h i j).length = h.length := by
  simp [hswap]

theorem hget_hswap [Inhabited α] (h : List α) {i j : Nat}
    (hi : i < h.length) (hj : j < h.length) (k : Nat) :
    hget (hswap h i j) k =
      if k = j then hget h i else if k = i then hget h j else hget h k := by
  simp only [hswap, hget_set, List.length_set]
  by_cases h1 : k = j
  · subst h1
    rw [if_pos ⟨rfl, hj⟩, if_pos rfl]
  · rw [if_neg (fun hh => h1 hh.1.symm), if_neg h1]
    by_cases h2 : k = i
    · subst h2
      rw [if_pos ⟨rfl, hi⟩, if_pos rfl]
    · rw [if_neg (fun hh => h2 hh.1.symm), if_neg h2]

theorem hget_append_left [Inhabited α] (h t : List α) (k : Nat) (hk : k < h.length) :
    hget (h ++ t) k = hget h k := by
  rw [hget_eq_getElem _ _ (by simp; omega), hget_eq_getElem _ _ hk]
  exact List.getElem_append_left hk

theorem hget_append_last [Inhabited α] (h : List α) (x : α) :
    hget (h ++ [x]) h.length = x := by
  rw [hget_eq_getElem _ _ (by simp)]
  simp

theorem hget_dropLast [Inhabited α] (h : List α) (k : Nat) (hk : k + 1 < h.length) :
    hget h.dropLast k = hget h k := by
  rw [hget_eq_getElem _ _ (by simp [List.length_dropLast]; omega),
    hget_eq_getElem _ _ (by omega)]
  exact List.getElem_dropLast h k _

/-- Replacing an element is, up to permutation, removing the old value and
adding the new one at the front. -/
theorem cons_set_perm (l : List α) (k : Nat) (x : α) (d : α) (hk : k < l.length) :
    List.Perm (l.getD k d :: l.set k x) (x :: l) := by
  induction l generalizing k with
  | nil => simp at hk
  | cons a t ih =>
    cases k with
    | zero => simpa using List.Perm.swap x a t
    | succ m =>
      have hm : m < t.length := by simpa using hk
      have e : (a :: t).getD (m + 1) d :: (a :: t).set (m + 1) x
          = t.getD m d :: a :: t.set m x := by simp
      rw [e]
      exact ((List.Perm.swap a _ _).trans ((ih m hm).cons a)).trans
        (List.Perm.swap x a t)

theorem hswap_perm [Inhabited α] (h : List α) {i j : Nat}
    (hi : i < h.length) (hj : j < h.length) : List.Perm (hswap h i j) h := by
  have hj2 : j < (h.set i (hget h j)).length := by simpa using hj
  have p1 := cons_set_perm (h.set i (hget h j)) j (hget h i) default hj2
  have p2 := cons_set_perm h i (hget h j) default hi
  have e1 : (h.set i (hget h j)).getD j default = hget h j := by
    show hget (h.set i (hget h j)) j = hget h j
    rw [hget_set]
    split <;> rfl
  have e2 : h.getD i default = hget h i := rfl
  rw [e1] at p1
  rw [e2] at p2
  exact (p1.trans p2).cons_inv
/-! ## `_siftUp` establishes the heap shape -/

theorem siftUpF_succ [Inhabited α] (lt : α → α → Bool) (fuel : Nat) (h : List α) (j : Nat) :
    siftUpF lt (fuel + 1) h j =
      if j = 0 then h
      else if lt (hget h j) (hget h ((j - 1) / 2)) then
        siftUpF lt fuel (hswap h j ((j - 1) / 2)) ((j - 1) / 2)
      else h := rfl

theorem siftUpF_length [Inhabited α] (lt : α → α → Bool) :
    ∀ (fuel : Nat) (h : List α) (j : Nat), (siftUpF lt fuel h j).length = h.length
  | 0, _, _ => rfl
  | fuel + 1, h, j => by
    rw [siftUpF_succ]
    by_cases hj0 : j = 0
    · simp [hj0]
    · rw [if_neg hj0]
      by_cases hlt : lt (hget h j) (hget h ((j - 1) / 2)) = true
      · rw [if_pos hlt, siftUpF_length lt fuel, hswap_length]
      · rw [if_neg hlt]

theorem siftUpF_perm [Inhabited α] (lt : α → α → Bool) :
    ∀ (fuel : Nat) (h : List α) (j : Nat), j < h.length →
      List.Perm (siftUpF lt fuel h j) h
  | 0, _, _, _ => List.Perm.refl _
  | fuel + 1, h, j, hj => by
    rw [siftUpF_succ]
    by_cases hj0 : j = 0
    · rw [if_pos hj0]
    · rw [if_neg hj0]
      by_cases hlt : lt (hget h j) (hget h ((j - 1) / 2)) = true
      · rw [if_pos hlt]
        have hpj : (j - 1) / 2 < j := by omega
        have hp : (j - 1) / 2 < h.length := by omega
        have hp2 : (j - 1) / 2 < (hswap h j ((j - 1) / 2)).length := by
          rw [hswap_length]; omega
        exact (siftUpF_perm lt fuel _ _ hp2).trans (hswap_perm h hj hp)
      · rw [if_neg hlt]

theorem siftUpF_isHeap [Inhabited α] (lt : α → α → Bool)
    (Hasym : ∀ a b : α, lt a b = true → lt b a = false)
    (Hltt : ∀ a b c : α, lt a b = true → lt b c = true → lt a c = true)
    (Hneg : ∀ a b c : α, lt a b = false → lt b c = false → lt a c = false) :
    ∀ (fuel : Nat) (h : List α) (j : Nat), j < fuel → j < h.length →
      (∀ c, c < h.length → 0 < c → c ≠ j →
        lt (hget h c) (hget h ((c - 1) / 2)) = false) →
      (∀ c, c < h.length → 0 < j → (c = 2 * j + 1 ∨ c = 2 * j + 2) →
        lt (hget h c) (hget h ((j - 1) / 2)) = false) →
      IsHeap lt (siftUpF lt fuel h j)
  | 0, _, j, hfj, _, _, _ => absurd hfj (by omega)
  | fuel + 1, h, j, hfj, hj, H1, H2 => by
    rw [siftUpF_succ]
    by_cases hj0 : j = 0
    · rw [if_pos hj0]
      intro i hi hi0
      exact H1 i hi hi0 (by omega)
    · rw [if_neg hj0]
      have hj1 : 0 < j := Nat.pos_of_ne_zero hj0
      have hpj : (j - 1) / 2 < j := by omega
      have hplen : (j - 1) / 2 < h.length := by omega
      by_cases hlt : lt (hget h j) (hget h ((j - 1) / 2)) = true
      · rw [if_pos hlt]
        have hlen2 : (j - 1) / 2 < (hswap h j ((j - 1) / 2)).length := by
          rw [hswap_length]; omega
        have hgede := hget_hswap h hj hplen
        apply siftUpF_isHeap lt Hasym Hltt Hneg fuel _ _ (by omega) hlen2
        · -- heap-shape everywhere except possibly at the new position
          intro c hc hc0 hcp
          rw [hswap_length] at hc
          by_cases hcj : c = j
          · subst hcj
            rw [hgede c, hgede ((c - 1) / 2), if_neg (by omega : ¬ c = (c - 1) / 2),
              if_pos rfl, if_pos rfl]
            exact Hasym _ _ hlt
          · by_cases hqj : (c - 1) / 2 = j
            · have hcc : c = 2 * j + 1 ∨ c = 2 * j + 2 := by omega
              have hcnep : c ≠ (j - 1) / 2 := by omega
              rw [hgede c, hgede ((c - 1) / 2), if_neg hcnep, if_neg hcj, hqj,
                if_neg (by omega : ¬ j = (j - 1) / 2), if_pos rfl]
              exact H2 c hc hj1 hcc
            · by_cases hqp : (c - 1) / 2 = (j - 1) / 2
              · rw [hgede c, hgede ((c - 1) / 2), if_neg hcp, if_neg hcj, hqp,
                  if_pos rfl]
                have hbase := H1 c hc hc0 hcj
                rw [hqp] at hbase
                cases hx : lt (hget h c) (hget h j) with
                | false => rfl
                | true =>
                  have hres := Hltt _ _ _ hx hlt
                  simp [hbase] at hres
              · rw [hgede c, hgede ((c - 1) / 2), if_neg hcp, if_neg hcj,
                  if_neg hqp, if_neg hqj]
                exact H1 c hc hc0 hcj
        · -- children of the new position stay above its parent
          intro c hc hp1 hcc
          rw [hswap_length] at hc
          have hppp : (((j - 1) / 2) - 1) / 2 < (j - 1) / 2 := by omega
          have hppne1 : ¬ ((((j - 1) / 2) - 1) / 2 = (j - 1) / 2) := by omega
          have hppne2 : ¬ ((((j - 1) / 2) - 1) / 2 = j) := by omega
          rw [hgede c, hgede ((((j - 1) / 2) - 1) / 2), if_neg hppne1, if_neg hppne2]
          by_cases hcj : c = j
          · subst hcj
            rw [if_neg (by omega : ¬ c = (c - 1) / 2), if_pos rfl]
            exact H1 ((c - 1) / 2) hplen hp1 (by omega)
          · have hcgt : (j - 1) / 2 < c := by omega
            rw [if_neg (by omega : ¬ c = (j - 1) / 2), if_neg hcj]
            have h1c := H1 c hc (by omega) hcj
            rw [(by omega : (c - 1) / 2 = (j - 1) / 2)] at h1c
            have h1p := H1 ((j - 1) / 2) hplen hp1 (by omega)
            exact Hneg _ _ _ h1c h1p
      · rw [if_neg hlt]
        intro i hi hi0
        by_cases hij : i = j
        · subst hij
          exact Bool.eq_false_iff.mpr hlt
        · exact H1 i hi hi0 hij

/-- `insert` keeps the heap a heap. -/
theorem heapInsert_isHeap [Inhabited α] (lt : α → α → Bool)
    (Hasym : ∀ a b : α, lt a b = true → lt b a = false)
    (Hltt : ∀ a b c : α, lt a b = true → lt b c = true → lt a c = true)
    (Hneg : ∀ a b c : α, lt a b = false → lt b c = false → lt a c = false)
    (h : List α) (x : α) (hh : IsHeap lt h) : IsHeap lt (heapInsert lt h x) := by
  apply siftUpF_isHeap lt Hasym Hltt Hneg (h.length + 1) (h ++ [x]) h.length
    (by omega) (by simp)
  · intro c hc hc0 hcj
    simp only [List.length_append, List.length_cons, List.length_nil] at hc
    have hc2 : c < h.length := by omega
    rw [hget_append_left _ _ _ hc2, hget_append_left _ _ _ (by omega)]
    exact hh c hc2 hc0
  · intro c hc _ hcc
    simp only [List.length_append, List.length_cons, List.length_nil] at hc
    omega

/-- `insert` adds exactly the new element. -/
theorem heapInsert_perm [Inhabited α] (lt : α → α → Bool) (h : List α) (x : α) :
    List.Perm (heapInsert lt h x) (x :: h) :=
  (siftUpF_perm lt (h.length + 1) (h ++ [x]) h.length (by simp)).trans
    (List.perm_append_singleton x h)

/-- In a heap, the root is a minimum: no element is strictly below it. -/
theorem isHeap_root_min [Inhabited α] (lt : α → α → Bool)
    (Hirr : ∀ a : α, lt a a = false)
    (Hneg : ∀ a b c : α, lt a b = false → lt b c = false → lt a c = false)
    (h : List α) (hh : IsHeap lt h) :
    ∀ k, k < h.length → lt (hget h k) (hget h 0) = false := by
  intro k
  induction k using Nat.strong_induction_on with
  | _ k ih =>
    intro hk
    cases Nat.eq_zero_or_pos k with
    | inl h0 => rw [h0]; exact Hirr _
    | inr hpos =>
      have hp : (k - 1) / 2 < k := by omega
      exact Hneg _ _ _ (hh k hk hpos) (ih _ hp (by omega))

/-- Membership form of the root-minimality of a heap. -/
theorem isHeap_min_mem [Inhabited α] (lt : α → α → Bool)
    (Hirr : ∀ a : α, lt a a = false)
    (Hneg : ∀ a b c : α, lt a b = false → lt b c = false → lt a c = false)
    (h : List α) (hh : IsHeap lt h) (y : α) (hy : y ∈ h) :
    lt y (hget h 0) = false := by
  obtain ⟨k, hk, rfl⟩ := List.mem_iff_getElem.mp hy
  rw [← hget_eq_getElem h k hk]
  exact isHeap_root_min lt Hirr Hneg h hh k hk
/-! ## `_siftDown` restores the heap shape -/

theorem siftDownF_succ [Inhabited α] (lt : α → α → Bool) (fuel : Nat) (h : List α) (i : Nat) :
    siftDownF lt (fuel + 1) h i =
      if childSel lt h i = i then h
      else siftDownF lt fuel (hswap h i (childSel lt h i)) (childSel lt h i) := rfl

/-- When `smallest` stays put, neither in-range child is strictly smaller. -/
theorem childSel_eq_self [Inhabited α] (lt : α → α → Bool) (h : List α) (i : Nat)
    (hs : childSel lt h i = i) :
    ∀ c, (c = 2 * i + 1 ∨ c = 2 * i + 2) → c < h.length →
      lt (hget h c) (hget h i) = false := by
  unfold childSel at hs
  by_cases c1 : (2 * i + 1 < h.length && lt (hget h (2 * i + 1)) (hget h i)) = true
  · rw [if_pos c1] at hs
    by_cases c2 : (2 * i + 2 < h.length && lt (hget h (2 * i + 2)) (hget h (2 * i + 1))) = true
    · rw [if_pos c2] at hs; omega
    · rw [if_neg c2] at hs; omega
  · rw [if_neg c1] at hs
    simp only [Bool.and_eq_true, decide_eq_true_eq, not_and] at c1
    by_cases c2 : (2 * i + 2 < h.length && lt (hget h (2 * i + 2)) (hget h i)) = true
    · rw [if_pos c2] at hs; omega
    · rw [if_neg c2] at hs
      simp only [Bool.and_eq_true, decide_eq_true_eq, not_and] at c2
      intro c hcc hc
      rcases hcc with rfl | rfl
      · exact Bool.eq_false_iff.mpr (c1 hc)
      · exact Bool.eq_false_iff.mpr (c2 hc)

/-- When `smallest` moves, it is an in-range child strictly above `i`. -/
theorem childSel_bounds [Inhabited α] (lt : α → α → Bool) (h : List α) (i : Nat)
    (hs : childSel lt h i ≠ i) :
    childSel lt h i < h.length ∧ i < childSel lt h i ∧
      (childSel lt h i = 2 * i + 1 ∨ childSel lt h i = 2 * i + 2) := by
  unfold childSel at hs ⊢
  by_cases c1 : (2 * i + 1 < h.length && lt (hget h (2 * i + 1)) (hget h i)) = true
  · rw [if_pos c1] at hs ⊢
    simp only [Bool.and_eq_true, decide_eq_true_eq] at c1
    by_cases c2 : (2 * i + 2 < h.length && lt (hget h (2 * i + 2)) (hget h (2 * i + 1))) = true
    · rw [if_pos c2] at hs ⊢
      simp only [Bool.and_eq_true, decide_eq_true_eq] at c2
      exact ⟨c2.1, by omega, by omega⟩
    · rw [if_neg c2] at hs ⊢
      exact ⟨c1.1, by omega, by omega⟩
  · rw [if_neg c1] at hs ⊢
    by_cases c2 : (2 * i + 2 < h.length && lt (hget h (2 * i + 2)) (hget h i)) = true
    · rw [if_pos c2] at hs ⊢
      simp only [Bool.and_eq_true, decide_eq_true_eq] at c2
      exact ⟨c2.1, by omega, by omega⟩
    · rw [if_neg c2] at hs ⊢
      omega

/-- When `smallest` moves, the chosen child is strictly smaller than `i`, and
the other in-range child is not smaller than the chosen one. -/
theorem childSel_min [Inhabited α] (lt : α → α → Bool)
    (Hasym : ∀ a b : α, lt a b = true → lt b a = false)
    (Hltt : ∀ a b c : α, lt a b = true → lt b c = true → lt a c = true)
    (h : List α) (i : Nat) (hs : childSel lt h i ≠ i) :
    lt (hget h (childSel lt h i)) (hget h i) = true ∧
      (∀ c, (c = 2 * i + 1 ∨ c = 2 * i + 2) → c < h.length → c ≠ childSel lt h i →
        lt (hget h c) (hget h (childSel lt h i)) = false) := by
  unfold childSel at hs ⊢
  by_cases c1 : (2 * i + 1 < h.length && lt (hget h (2 * i + 1)) (hget h i)) = true
  · rw [if_pos c1] at hs ⊢
    simp only [Bool.and_eq_true, decide_eq_true_eq] at c1
    by_cases c2 : (2 * i + 2 < h.length && lt (hget h (2 * i + 2)) (hget h (2 * i + 1))) = true
    · rw [if_pos c2] at hs ⊢
      simp only [Bool.and_eq_true, decide_eq_true_eq] at c2
      refine ⟨Hltt _ _ _ c2.2 c1.2, ?_⟩
      intro c hcc hc hcne
      have : c = 2 * i + 1 := by omega
      subst this
      exact Hasym _ _ c2.2
    · rw [if_neg c2] at hs ⊢
      simp only [Bool.and_eq_true, decide_eq_true_eq, not_and] at c2
      refine ⟨c1.2, ?_⟩
      intro c hcc hc hcne
      have : c = 2 * i + 2 := by omega
      subst this
      exact Bool.eq_false_iff.mpr (c2 hc)
  · rw [if_neg c1] at hs ⊢
    simp only [Bool.and_eq_true, decide_eq_true_eq, not_and] at c1
    by_cases c2 : (2 * i + 2 < h.length && lt (hget h (2 * i + 2)) (hget h i)) = true
    · rw [if_pos c2] at hs ⊢
      simp only [Bool.and_eq_true, decide_eq_true_eq] at c2
      refine ⟨c2.2, ?_⟩
      intro c hcc hc hcne
      have : c = 2 * i + 1 := by omega
      subst this
      have hl := c1 hc
      cases hx : lt (hget h (2 * i + 1)) (hget h (2 * i + 2)) with
      | false => rfl
      | true =>
        have := Hltt _ _ _ hx c2.2
        simp [Bool.eq_false_iff.mpr hl] at this
    · rw [if_neg c2] at hs ⊢
      omega

theorem siftDownF_length [Inhabited α] (lt : α → α → Bool) :
    ∀ (fuel : Nat) (h : List α) (i : Nat), (siftDownF lt fuel h i).length = h.length
  | 0, _, _ => rfl
  | fuel + 1, h, i => by
    rw [siftDownF_succ]
    by_cases hs : childSel lt h i = i
    · rw [if_pos hs]
    · rw [if_neg hs, siftDownF_length lt fuel, hswap_length]

theorem siftDownF_perm [Inhabited α] (lt : α → α → Bool) :
    ∀ (fuel : Nat) (h : List α) (i : Nat), List.Perm (siftDownF lt fuel h i) h
  | 0, _, _ => List.Perm.refl _
  | fuel + 1, h, i => by
    rw [siftDownF_succ]
    by_cases hs : childSel lt h i = i
    · rw [if_pos hs]
    · rw [if_neg hs]
      obtain ⟨hslen, hsgt, _⟩ := childSel_bounds lt h i hs
      exact (siftDownF_perm lt fuel _ _).trans (hswap_perm h (by omega) hslen)

theorem siftDownF_isHeap [Inhabited α] (lt : α → α → Bool)
    (Hasym : ∀ a b : α, lt a b = true → lt b a = false)
    (Hltt : ∀ a b c : α, lt a b = true → lt b c = true → lt a c = true) :
    ∀ (fuel : Nat) (h : List α) (i : Nat), h.length ≤ fuel + i →
      (∀ c, c < h.length → 0 < c → (c - 1) / 2 ≠ i →
        lt (hget h c) (hget h ((c - 1) / 2)) = false) →
      (0 < i → ∀ c, c < h.length → (c = 2 * i + 1 ∨ c = 2 * i + 2) →
        lt (hget h c) (hget h ((i - 1) / 2)) = false) →
      IsHeap lt (siftDownF lt fuel h i)
  | 0, h, i, hfuel, H1, _ => by
    have e : siftDownF lt 0 h i = h := rfl
    rw [e]
    intro c hc hc0
    exact H1 c hc hc0 (by omega)
  | fuel + 1, h, i, hfuel, H1, H2 => by
    rw [siftDownF_succ]
    by_cases hs : childSel lt h i = i
    · rw [if_pos hs]
      intro c hc hc0
      by_cases hq : (c - 1) / 2 = i
      · rw [hq]
        exact childSel_eq_self lt h i hs c (by omega) hc
      · exact H1 c hc hc0 hq
    · rw [if_neg hs]
      obtain ⟨hslen, hsgt, hschild⟩ := childSel_bounds lt h i hs
      obtain ⟨hmin, hsib⟩ := childSel_min lt Hasym Hltt h i hs
      have hilen : i < h.length := by omega
      have hgede := hget_hswap h hilen hslen
      set s := childSel lt h i with hsdef
      apply siftDownF_isHeap lt Hasym Hltt fuel _ s
        (by rw [hswap_length]; omega)
      · -- heap-shape everywhere except possibly below the moved element
        intro c hc hc0 hq
        rw [hswap_length] at hc
        by_cases hcs : c = s
        · rw [hcs]
          have hqi : (s - 1) / 2 = i := by omega
          rw [hgede s, hget_hswap h hilen hslen ((s - 1) / 2), if_pos rfl, hqi,
            if_neg (by omega : ¬ i = s), if_pos rfl]
          exact Hasym _ _ hmin
        · by_cases hci : c = i
          · rw [hci]
            rw [hgede i, hgede ((i - 1) / 2), if_neg (by omega : ¬ i = s), if_pos rfl,
              if_neg (by omega : ¬ (i - 1) / 2 = s), if_neg (by omega : ¬ (i - 1) / 2 = i)]
            exact H2 (by omega) s hslen hschild
          · by_cases hqi : (c - 1) / 2 = i
            · -- sibling of the chosen child
              have hcc : c = 2 * i + 1 ∨ c = 2 * i + 2 := by omega
              rw [hgede c, hgede ((c - 1) / 2), if_neg hcs, if_neg hci, hqi,
                if_neg (by omega : ¬ i = s), if_pos rfl]
              exact hsib c hcc hc hcs
            · rw [hgede c, hgede ((c - 1) / 2), if_neg hcs, if_neg hci,
                if_neg hq, if_neg hqi]
              exact H1 c hc hc0 hqi
      · -- grandchildren of `i` stay above the moved element
        intro _ c hc hcc
        rw [hswap_length] at hc
        have hparent : (s - 1) / 2 = i := by omega
        rw [hgede c, hgede ((s - 1) / 2), hparent, if_neg (by omega : ¬ c = s),
          if_neg (by omega : ¬ c = i), if_neg (by omega : ¬ i = s), if_pos rfl]
        have hq : (c - 1) / 2 = s := by omega
        have h1c := H1 c hc (by omega) (by omega)
        rw [hq] at h1c
        exact h1c
/-! ## `extractMin` -/

theorem getLastD_cons_perm : ∀ (l : List α) (d : α), l ≠ [] →
    List.Perm (l.getLastD d :: l.dropLast) l
  | [], _, hne => absurd rfl hne
  | [a], d, _ => by simp
  | a :: b :: t, d, _ => by
    have e1 : (a :: b :: t).getLastD d = (b :: t).getLastD a := by
      simp [List.getLastD]
    have e2 : (a :: b :: t).dropLast = a :: (b :: t).dropLast := by simp
    rw [e1, e2]
    exact (List.Perm.swap a _ _).trans
      ((getLastD_cons_perm (b :: t) a (by simp)).cons a)

theorem extractMin_fst [Inhabited α] (lt : α → α → Bool) (h : List α) (hne : h ≠ []) :
    (extractMin lt h).1 = some (hget h 0) := by
  match h with
  | [] => exact absurd rfl hne
  | [x] => rfl
  | x :: y :: t => rfl

theorem extractMin_perm [Inhabited α] (lt : α → α → Bool) (h : List α) (hne : h ≠ []) :
    List.Perm (hget h 0 :: (extractMin lt h).2) h := by
  match h with
  | [] => exact absurd rfl hne
  | [x] => exact List.Perm.refl _
  | x :: y :: t =>
    have hx : hget (x :: y :: t) 0 = x := rfl
    have e : (extractMin lt (x :: y :: t)).2 =
        siftDownF lt ((((x :: y :: t).dropLast).set 0 ((y :: t).getLastD x)).length)
          ((((x :: y :: t).dropLast).set 0 ((y :: t).getLastD x))) 0 := rfl
    rw [hx, e]
    have eA : (((x :: y :: t).dropLast).set 0 ((y :: t).getLastD x)) =
        (y :: t).getLastD x :: (y :: t).dropLast := by
      simp
    have p1 := siftDownF_perm lt ((((x :: y :: t).dropLast).set 0 ((y :: t).getLastD x)).length)
      ((((x :: y :: t).dropLast).set 0 ((y :: t).getLastD x))) 0
    rw [eA] at p1
    exact (p1.cons x).trans ((getLastD_cons_perm (y :: t) x (by simp)).cons x)

theorem extractMin_isHeap [Inhabited α] (lt : α → α → Bool)
    (Hasym : ∀ a b : α, lt a b = true → lt b a = false)
    (Hltt : ∀ a b c : α, lt a b = true → lt b c = true → lt a c = true)
    (h : List α) (hh : IsHeap lt h) : IsHeap lt (extractMin lt h).2 := by
  match h with
  | [] =>
    intro i hi _
    simp [extractMin] at hi
  | [x] =>
    intro i hi _
    simp [extractMin] at hi
  | x :: y :: t =>
    have e : (extractMin lt (x :: y :: t)).2 =
        siftDownF lt ((((x :: y :: t).dropLast).set 0 ((y :: t).getLastD x)).length)
          ((((x :: y :: t).dropLast).set 0 ((y :: t).getLastD x))) 0 := rfl
    rw [e]
    have hlenA : ((((x :: y :: t).dropLast).set 0 ((y :: t).getLastD x))).length
        = (x :: y :: t).length - 1 := by simp
    apply siftDownF_isHeap lt Hasym Hltt _ _ 0 (by omega)
    · intro c hc hc0 hq
      rw [hlenA] at hc
      have hcn : c + 1 < (x :: y :: t).length := by omega
      have hqn : (c - 1) / 2 + 1 < (x :: y :: t).length := by omega
      have ec : hget ((((x :: y :: t).dropLast).set 0 ((y :: t).getLastD x))) c
          = hget (x :: y :: t) c := by
        rw [hget_set, if_neg (by omega : ¬ (0 = c ∧ 0 < (x :: y :: t).dropLast.length)),
          hget_dropLast _ _ hcn]
      have eq2 : hget ((((x :: y :: t).dropLast).set 0 ((y :: t).getLastD x))) ((c - 1) / 2)
          = hget (x :: y :: t) ((c - 1) / 2) := by
        rw [hget_set, if_neg (by omega : ¬ (0 = (c - 1) / 2 ∧ 0 < (x :: y :: t).dropLast.length)),
          hget_dropLast _ _ hqn]
      rw [ec, eq2]
      exact hh c (by omega) hc0
    · intro h0
      omega

theorem mergeStep_eq_none (h : List Rdr) : mergeStep h = none ↔ h = [] := by
  match h with
  | [] => simp [mergeStep, extractMin]
  | [x] => simp [mergeStep, extractMin]
  | x :: y :: t => simp [mergeStep, extractMin]
/-! ## The k-way merge loop invariant -/

/-- Comparator output translated to the line order, for live readers. -/
theorem rdrLt_false_le {s r : Rdr} (hs : s.current.isSome = true)
    (hr : r.current.isSome = true) (hlt : rdrLt s r = false) :
    lineLe (emittedLine r) (emittedLine s) = true := by
  obtain ⟨a, ha⟩ := Option.isSome_iff_exists.mp hr
  obtain ⟨b, hb⟩ := Option.isSome_iff_exists.mp hs
  rw [rdrLt_spec, hb, ha] at hlt
  have hlt2 : lineLt b a = false := hlt
  simp only [emittedLine, ha, hb, Option.getD_some]
  simp [lineLe, hlt2]

theorem advance_idx (r : Rdr) : (advance r).idx = r.idx := by
  unfold advance
  cases r.rest <;> rfl

theorem advance_isSome_iff (r : Rdr) :
    (advance r).current.isSome = true ↔ r.rest ≠ [] := by
  unfold advance
  cases r.rest <;> simp

/-- What one iteration of the merge loop produces on a non-empty heap. -/
theorem mergeStep_some (h : List Rdr) (hne : h ≠ []) :
    mergeStep h = some (emittedLine (hget h 0),
      if (advance (hget h 0)).current.isSome
      then heapInsert rdrLt (extractMin rdrLt h).2 (advance (hget h 0))
      else (extractMin rdrLt h).2) := by
  have e1 := extractMin_fst rdrLt h hne
  unfold mergeStep
  rcases em : extractMin rdrLt h with ⟨fst, h1⟩
  rw [em] at e1
  simp only at e1
  subst e1
  rfl

/-- One merge iteration preserves the invariant; the emitted line comes from a
heap entry and is a lower bound for every current line before and after the
step. -/
theorem mergeStep_inv (h : List Rdr) (inv : MergeInv h) (out : String)
    (h2 : List Rdr) (hstep : mergeStep h = some (out, h2)) :
    MergeInv h2 ∧ (∃ r ∈ h, emittedLine r = out) ∧
      (∀ s ∈ h, lineLe out (emittedLine s) = true) ∧
      (∀ s ∈ h2, lineLe out (emittedLine s) = true) := by
  obtain ⟨hheap, hgood, hnodup⟩ := inv
  have hne : h ≠ [] := by
    intro hnil
    rw [(mergeStep_eq_none h).mpr hnil] at hstep
    cases hstep
  rw [mergeStep_some h hne] at hstep
  injection hstep with hstep
  have hout : out = emittedLine (hget h 0) := (congrArg Prod.fst hstep).symm
  have hh2 : h2 = if (advance (hget h 0)).current.isSome
      then heapInsert rdrLt (extractMin rdrLt h).2 (advance (hget h 0))
      else (extractMin rdrLt h).2 := (congrArg Prod.snd hstep).symm
  clear hstep
  set r := hget h 0 with hr
  have hrmem : r ∈ h := by
    have hlen : 0 < h.length := List.length_pos.mpr hne
    rw [hr, hget_eq_getElem h 0 hlen]
    exact List.getElem_mem hlen
  have hrgood := hgood r hrmem
  set h1 := (extractMin rdrLt h).2 with hh1
  have hperm : List.Perm (r :: h1) h := extractMin_perm rdrLt h hne
  have hsubset : ∀ s ∈ h1, s ∈ h := fun s hs =>
    hperm.mem_iff.mp (List.mem_cons_of_mem r hs)
  have hmin : ∀ s ∈ h, lineLe out (emittedLine s) = true := by
    intro s hs
    rw [hout]
    exact rdrLt_false_le (hgood s hs).1 hrgood.1
      (isHeap_min_mem rdrLt rdrLt_irrefl (fun _ _ _ => rdrLt_negtrans) h hheap s hs)
  have hheap1 : IsHeap rdrLt h1 := extractMin_isHeap rdrLt
    (fun _ _ => rdrLt_asymm) (fun _ _ _ => rdrLt_trans) h hheap
  have hnodup1 : ((r :: h1).map Rdr.idx).Nodup :=
    ((hperm.map Rdr.idx).nodup_iff).mpr hnodup
  have hgood1 : ∀ s ∈ h1, goodReader s := fun s hs => hgood s (hsubset s hs)
  refine ⟨?_, ⟨r, hrmem, hout.symm⟩, hmin, ?_⟩ <;> rw [hh2]
  · -- the invariant after the step
    by_cases hadv : (advance r).current.isSome = true
    · rw [if_pos hadv]
      have hrest : r.rest ≠ [] := (advance_isSome_iff r).mp hadv
      rcases hrl : r.rest with _ | ⟨l, ls⟩
      · exact absurd hrl hrest
      have hsorted := hrgood.2
      obtain ⟨a, ha⟩ := Option.isSome_iff_exists.mp hrgood.1
      rw [ha] at hsorted
      simp only [Option.getD_some, hrl] at hsorted
      have hcur : (advance r).current = some l := by simp [advance, hrl]
      have hrest2 : (advance r).rest = ls := by simp [advance, hrl]
      have hgoodadv : goodReader (advance r) := by
        refine ⟨by rw [hcur]; rfl, ?_⟩
        rw [hcur, hrest2]
        exact (List.pairwise_cons.mp hsorted).2
      have hpermins := heapInsert_perm rdrLt h1 (advance r)
      refine ⟨heapInsert_isHeap rdrLt (fun _ _ => rdrLt_asymm)
        (fun _ _ _ => rdrLt_trans) (fun _ _ _ => rdrLt_negtrans) h1 (advance r) hheap1,
        ?_, ?_⟩
      · intro s hs
        rcases List.mem_cons.mp (hpermins.mem_iff.mp hs) with hs2 | hs2
        · rw [hs2]; exact hgoodadv
        · exact hgood1 s hs2
      · have : ((advance r :: h1).map Rdr.idx).Nodup := by
          simp only [List.map_cons, advance_idx]
          simpa using hnodup1
        exact ((hpermins.map Rdr.idx).nodup_iff).mpr this
    · rw [if_neg hadv]
      exact ⟨hheap1, hgood1, (List.nodup_cons.mp hnodup1).2⟩
  · -- the emitted line bounds every current line still in the heap
    by_cases hadv : (advance r).current.isSome = true
    · rw [if_pos hadv]
      intro s hs
      rcases List.mem_cons.mp ((heapInsert_perm rdrLt h1 (advance r)).mem_iff.mp hs)
        with hs2 | hs2
      · rcases hrl : r.rest with _ | ⟨l, ls⟩
        · simp [advance, hrl] at hadv
        have hsorted := hrgood.2
        obtain ⟨a, ha⟩ := Option.isSome_iff_exists.mp hrgood.1
        rw [ha] at hsorted
        simp only [Option.getD_some, hrl] at hsorted
        have hel : emittedLine s = l := by
          rw [hs2]
          simp [emittedLine, advance, hrl]
        rw [hel, hout]
        have hout2 : emittedLine r = a := by simp [emittedLine, ha]
        rw [hout2]
        exact (List.pairwise_cons.mp hsorted).1 l (by simp)
      · exact hmin s (hsubset s hs2)
    · rw [if_neg hadv]
      intro s hs
      exact hmin s (hsubset s hs)
/-! ## Sortedness of the merge output -/

/-- Under the invariant the merge loop emits a non-decreasing line sequence,
each of whose lines is bounded below by some current line of the heap.  (Any
fuel: a prefix of the merged stream is sorted as well.) -/
theorem mergeLoopF_sorted : ∀ (fuel : Nat) (h : List Rdr), MergeInv h →
    sortedLines (mergeLoopF fuel h) ∧
      ∀ x ∈ mergeLoopF fuel h, ∃ s ∈ h, lineLe (emittedLine s) x = true
  | 0, h, _ => ⟨List.Pairwise.nil, by simp [mergeLoopF]⟩
  | fuel + 1, h, inv => by
    rcases hstep : mergeStep h with _ | ⟨out, h2⟩
    · constructor
      · show List.Pairwise _ (mergeLoopF (fuel + 1) h)
        simp [mergeLoopF, hstep]
      · intro x hx
        simp [mergeLoopF, hstep] at hx
    · have hmain := mergeStep_inv h inv out h2 hstep
      obtain ⟨inv2, ⟨r, hrmem, hrout⟩, hboundh, hboundh2⟩ := hmain
      obtain ⟨ihs, ihb⟩ := mergeLoopF_sorted fuel h2 inv2
      have hloop : mergeLoopF (fuel + 1) h = out :: mergeLoopF fuel h2 := by
        simp [mergeLoopF, hstep]
      rw [hloop]
      have htail : ∀ x ∈ mergeLoopF fuel h2, lineLe out x = true := by
        intro x hx
        obtain ⟨s, hsmem, hsx⟩ := ihb x hx
        exact lineLe_trans (hboundh2 s hsmem) hsx
      constructor
      · exact List.pairwise_cons.mpr ⟨htail, ihs⟩
      · intro x hx
        rcases List.mem_cons.mp hx with rfl | hx2
        · exact ⟨r, hrmem, by rw [hrout]; exact lineLe_refl x⟩
        · exact ⟨r, hrmem, by rw [hrout]; exact htail x hx2⟩

/-- Folding guarded inserts over primed readers keeps the merge invariant. -/
theorem foldl_insert_inv : ∀ (rs : List Rdr) (h : List Rdr),
    IsHeap rdrLt h → (∀ r ∈ h, goodReader r) →
    ((h.map Rdr.idx) ++ (rs.map Rdr.idx)).Nodup →
    (∀ r ∈ rs, r.current.isSome = true → sortedLines (r.current.getD "" :: r.rest)) →
    MergeInv (rs.foldl
      (fun acc r => if r.current.isSome then heapInsert rdrLt acc r else acc) h)
  | [], h, hheap, hgood, hnodup, _ => ⟨hheap, hgood, by simpa using hnodup⟩
  | r :: rs, h, hheap, hgood, hnodup, hsorted => by
    rw [List.foldl_cons]
    by_cases hcur : r.current.isSome = true
    · rw [if_pos hcur]
      have hperm := heapInsert_perm rdrLt h r
      apply foldl_insert_inv rs
      · exact heapInsert_isHeap rdrLt (fun _ _ => rdrLt_asymm)
          (fun _ _ _ => rdrLt_trans) (fun _ _ _ => rdrLt_negtrans) h r hheap
      · intro s hs
        rcases List.mem_cons.mp (hperm.mem_iff.mp hs) with rfl | hs2
        · exact ⟨hcur, hsorted s (by simp) hcur⟩
        · exact hgood s hs2
      · have hp2 : List.Perm ((heapInsert rdrLt h r).map Rdr.idx ++ rs.map Rdr.idx)
            (h.map Rdr.idx ++ (r :: rs).map Rdr.idx) := by
          refine ((hperm.map Rdr.idx).append_right _).trans ?_
          simp only [List.map_cons, List.cons_append]
          exact List.perm_middle.symm
        exact hp2.nodup_iff.mpr hnodup
      · intro s hs
        exact hsorted s (by simp [hs])
    · rw [if_neg hcur]
      apply foldl_insert_inv rs h hheap hgood
      · refine List.Sublist.nodup ?_ hnodup
        refine List.Sublist.append_left ?_ _
        simp
      · intro s hs
        exact hsorted s (by simp [hs])

theorem primeReader_idx (p : Nat × List String) : (primeReader p).idx = p.1 := by
  rcases p with ⟨i, _ | ⟨l, ls⟩⟩ <;> rfl

/-- The initial heap of `_kWayMerge` satisfies the merge invariant whenever
the chunk files are sorted. -/
theorem initHeap_inv (chunks : List (List String))
    (hs : ∀ c ∈ chunks, sortedLines c) : MergeInv (initHeap chunks) := by
  unfold initHeap
  apply foldl_insert_inv _ []
  · intro i hi _
    simp at hi
  · intro r hr
    simp at hr
  · simp only [List.map_map, List.nil_append]
    have e : (chunks.enum.map primeReader).map Rdr.idx = chunks.enum.map Prod.fst := by
      rw [List.map_map]
      exact List.map_congr_left (fun p _ => primeReader_idx p)
    rw [List.map_map] at e
    rw [e, List.enum_map_fst]
    exact List.nodup_range _
  · intro r hr hcur
    obtain ⟨p, hp, rfl⟩ := List.mem_map.mp hr
    rcases p with ⟨i, _ | ⟨l, ls⟩⟩
    · simp [primeReader] at hcur
    · have hmem : l :: ls ∈ chunks := List.snd_mem_of_mem_enum hp
      have := hs _ hmem
      simpa [primeReader] using this

/-- The `linesWritten` counter counts exactly the emitted lines. -/
theorem mergeCountF_spec : ∀ (fuel : Nat) (h : List Rdr) (n : Nat),
    mergeCountF fuel h n = n + (mergeLoopF fuel h).length
  | 0, _, n => by simp [mergeCountF, mergeLoopF]
  | fuel + 1, h, n => by
    rcases hstep : mergeStep h with _ | ⟨out, h2⟩
    · simp [mergeCountF, mergeLoopF, hstep]
    · simp only [mergeCountF, mergeLoopF, hstep]
      rw [mergeCountF_spec fuel h2 (n + 1)]
      simp [List.length_cons]
      omega
/-! ## Splitter chunk-size accounting -/

theorem chunkWeight_append_singleton (buf : List String) (l : String) :
    chunkWeight (buf ++ [l]) = chunkWeight buf + lineSize l := by
  simp [chunkWeight]

/-- The split loop invariant: every produced chunk is non-empty; a chunk whose
accumulated size reached the threshold exceeds it by less than its last line;
and every chunk except possibly the last was flushed at the threshold. -/
theorem splitLoop_spec (chunkSize : Nat) (hcs : 0 < chunkSize) :
    ∀ (lines buf : List String) (cur : Nat),
      cur = chunkWeight buf → cur < chunkSize →
      (∀ c ∈ splitLoop chunkSize lines buf cur, c ≠ [] ∧
        (chunkSize ≤ chunkWeight c →
          chunkWeight c < chunkSize + lineSize (c.getLastD ""))) ∧
      (∀ c ∈ (splitLoop chunkSize lines buf cur).dropLast, chunkSize ≤ chunkWeight c)
  | [], buf, cur, hw, hlt => by
    constructor
    · intro c hc
      unfold splitLoop at hc
      by_cases hb : buf.isEmpty
      · rw [if_pos hb] at hc
        simp at hc
      · rw [if_neg hb] at hc
        rcases List.mem_singleton.mp hc with rfl
        refine ⟨by simpa [List.isEmpty_iff] using hb, fun hge => ?_⟩
        rw [← hw] at hge
        omega
    · intro c hc
      unfold splitLoop at hc
      by_cases hb : buf.isEmpty
      · rw [if_pos hb] at hc
        simp at hc
      · rw [if_neg hb] at hc
        simp at hc
  | l :: ls, buf, cur, hw, hlt => by
    unfold splitLoop
    by_cases hflush : chunkSize ≤ cur + lineSize l
    · rw [if_pos hflush]
      have hw2 : chunkWeight (buf ++ [l]) = cur + lineSize l := by
        rw [chunkWeight_append_singleton, hw]
      have ih := splitLoop_spec chunkSize hcs ls [] 0 rfl hcs
      constructor
      · intro c hc
        rcases List.mem_cons.mp hc with rfl | hc2
        · refine ⟨by simp, fun _ => ?_⟩
          rw [hw2, List.getLastD_concat]
          omega
        · exact ih.1 c hc2
      · intro c hc
        rcases hrest : splitLoop chunkSize ls [] 0 with _ | ⟨r1, rtail⟩
        · rw [hrest] at hc
          simp at hc
        · rw [hrest] at hc
          have e : ((buf ++ [l]) :: r1 :: rtail).dropLast
              = (buf ++ [l]) :: (r1 :: rtail).dropLast := rfl
          rw [e] at hc
          rcases List.mem_cons.mp hc with rfl | hc2
          · rw [hw2]; exact hflush
          · have := ih.2
            rw [hrest] at this
            exact this c hc2
    · rw [if_neg hflush]
      exact splitLoop_spec chunkSize hcs ls (buf ++ [l]) (cur + lineSize l)
        (by rw [chunkWeight_append_singleton, hw]) (by omega)

/-- The derived chunk size is positive whenever the memory budget is at least
two bytes. -/
theorem chunkSizeBytes_pos {m : Nat} (hm : 2 ≤ m) : 0 < chunkSizeBytes m := by
  unfold chunkSizeBytes
  omega

/-! ## Hierarchical merge level structure -/

theorem levelStepAuxF_length (m : Nat) (hm : 0 < m) (f : Nat → List α → α) :
    ∀ (fuel g : Nat) (l : List α), l ≠ [] → l.length ≤ fuel →
      (levelStepAuxF m f fuel g l).length = (l.length + m - 1) / m
  | 0, _, l, hne, hfuel => by
    rcases l with _ | ⟨x, xs⟩
    · exact absurd rfl hne
    · simp at hfuel
  | fuel + 1, g, l, hne, hfuel => by
    rcases l with _ | ⟨x, xs⟩
    · exact absurd rfl hne
    · unfold levelStepAuxF
      rw [List.length_cons] at hfuel
      by_cases hsmall : (x :: xs).length ≤ m
      · rw [if_pos hsmall]
        rw [List.length_cons] at hsmall
        have e : ((x :: xs).length + m - 1) / m = 1 := by
          rw [List.length_cons]
          apply Nat.div_eq_of_lt_le <;> omega
        by_cases h1 : (x :: xs).length = 1
        · rw [if_pos h1, e, h1]
        · rw [if_neg h1, e]
          rfl
      · rw [if_neg hsmall]
        rw [List.length_cons] at hsmall
        have hlen : (xs.drop (m - 1)).length = xs.length + 1 - m := by
          rw [List.length_drop]
          omega
        have hne2 : xs.drop (m - 1) ≠ [] := by
          intro hnil
          rw [hnil] at hlen
          simp only [List.length_nil] at hlen
          omega
        rw [List.length_cons,
          levelStepAuxF_length m hm f fuel (g + 1) _ hne2 (by rw [hlen]; omega),
          hlen, List.length_cons]
        have e1 : xs.length + 1 - m + m - 1 = xs.length := by omega
        have e2 : xs.length + 1 + m - 1 = xs.length + m := by omega
        rw [e1, e2, Nat.add_div_right _ (by omega)]

theorem levelStep_length (m : Nat) (hm : 0 < m) (f : Nat → List α → α)
    (lvl : List α) (hne : lvl ≠ []) :
    (levelStep m f lvl).length = (lvl.length + m - 1) / m :=
  levelStepAuxF_length m hm f lvl.length 0 lvl hne (Nat.le_refl _)

/-- With a fan-in of at least two, every level strictly shrinks. -/
theorem levelStep_length_lt (m : Nat) (hm : 2 ≤ m) (f : Nat → List α → α)
    (lvl : List α) (hlen : 1 < lvl.length) :
    (levelStep m f lvl).length < lvl.length := by
  rw [levelStep_length m (by omega) f lvl (by intro hnil; rw [hnil] at hlen; simp at hlen)]
  rw [Nat.div_lt_iff_lt_mul (by omega)]
  have := Nat.add_le_mul (show 2 ≤ lvl.length by omega) hm
  have e : lvl.length * m = m * lvl.length := Nat.mul_comm _ _
  omega

theorem clog_le_self {m : Nat} (hm : 2 ≤ m) : ∀ n : Nat, Nat.clog m n ≤ n := by
  intro n
  induction n using Nat.strong_induction_on with
  | _ n ih =>
    rcases le_or_lt n 1 with h1 | h1
    · rcases Nat.le_one_iff_eq_zero_or_eq_one.mp h1 with rfl | rfl
      · simp [Nat.clog_zero_right]
      · simp [Nat.clog_one_right]
    · rw [Nat.clog_of_two_le (by omega) (by omega)]
      have hlt : (n + m - 1) / m < n := by
        rw [Nat.div_lt_iff_lt_mul (by omega)]
        have := Nat.add_le_mul (show 2 ≤ n by omega) hm
        have e : n * m = m * n := Nat.mul_comm _ _
        omega
      have := ih _ hlt
      omega

/-- The level loop of `_hierarchicalMerge`: with fan-in `≥ 2` and enough fuel
it ends with a single file after exactly `⌈log_m (number of chunks)⌉`
levels. -/
theorem hierLoopF_run {m : Nat} (hm : 2 ≤ m) (mg : Nat → Nat → List α → α) :
    ∀ (fuel : Nat) (lvl : List α) (li : Nat), lvl ≠ [] →
      Nat.clog m lvl.length ≤ fuel →
      (hierLoopF m mg fuel lvl li).1.length = 1 ∧
      (hierLoopF m mg fuel lvl li).2 = li + Nat.clog m lvl.length
  | 0, lvl, li, hne, hfuel => by
    have h1 : lvl.length ≤ 1 := by
      by_contra hgt
      have := Nat.clog_pos (show 1 < m by omega) (show 2 ≤ lvl.length by omega)
      omega
    have hlen : lvl.length = 1 := by
      have := List.length_pos.mpr hne
      omega
    have e : hierLoopF m mg 0 lvl li = (lvl, li) := rfl
    rw [e, hlen, Nat.clog_one_right]
    exact ⟨rfl, rfl⟩
  | fuel + 1, lvl, li, hne, hfuel => by
    by_cases hgt : 1 < lvl.length
    · have hstep0 : hierLoopF m mg (fuel + 1) lvl li
          = if 1 < lvl.length
            then hierLoopF m mg fuel (levelStep m (mg (li + 1)) lvl) (li + 1)
            else (lvl, li) := rfl
      have hstep : hierLoopF m mg (fuel + 1) lvl li
          = hierLoopF m mg fuel (levelStep m (mg (li + 1)) lvl) (li + 1) := by
        rw [hstep0, if_pos hgt]
      have hlen2 : (levelStep m (mg (li + 1)) lvl).length = (lvl.length + m - 1) / m :=
        levelStep_length m (by omega) _ lvl hne
      have hpos2 : 0 < (levelStep m (mg (li + 1)) lvl).length := by
        rw [hlen2]
        have : 0 < m := by omega
        have hposnum : m ≤ lvl.length + m - 1 := by omega
        have := Nat.div_le_div_right (c := m) hposnum
        rw [Nat.div_self (by omega : 0 < m)] at this
        omega
      have hclog : Nat.clog m lvl.length
          = Nat.clog m (levelStep m (mg (li + 1)) lvl).length + 1 := by
        rw [hlen2]
        exact Nat.clog_of_two_le (by omega) (by omega)
      have ih := hierLoopF_run hm mg fuel (levelStep m (mg (li + 1)) lvl) (li + 1)
        (List.length_pos.mp hpos2) (by omega)
      rw [hstep]
      exact ⟨ih.1, by rw [ih.2, hclog]; omega⟩
    · have hstep0 : hierLoopF m mg (fuel + 1) lvl li
          = if 1 < lvl.length
            then hierLoopF m mg fuel (levelStep m (mg (li + 1)) lvl) (li + 1)
            else (lvl, li) := rfl
      have hstep : hierLoopF m mg (fuel + 1) lvl li = (lvl, li) := by
        rw [hstep0, if_neg hgt]
      have hlen : lvl.length = 1 := by
        have := List.length_pos.mpr hne
        omega
      rw [hstep]
      exact ⟨hlen, by simp [hlen, Nat.clog_one_right]⟩
/-! ## The chunk sorters sort -/

theorem jsSortLines_sorted (l : List String) : sortedLines (jsSortLines l) :=
  List.sorted_insertionSort _ l

theorem jsSortLines_perm (l : List String) : List.Perm (jsSortLines l) l :=
  List.perm_insertionSort _ l

/-! ## `replace(".txt", ".sorted.txt")` -/

theorem isPrefixOf_nil_false {pat : List Char} (hne : pat ≠ []) :
    pat.isPrefixOf ([] : List Char) = false := by
  rcases pat with _ | ⟨c, cs⟩
  · exact absurd rfl hne
  · rfl

/-- No occurrence anywhere: `replace` returns the string unchanged. -/
theorem firstReplace_no_occurrence :
    ∀ (s pat rep : List Char), (∀ i, ¬ pat.isPrefixOf (s.drop i) = true) →
      firstReplace s pat rep = s
  | [], _, _, _ => rfl
  | c :: cs, pat, rep, hno => by
    unfold firstReplace
    rw [if_neg (by simpa using hno 0)]
    rw [firstReplace_no_occurrence cs pat rep (fun i => hno (i + 1))]

/-- First occurrence at `k`: `replace` substitutes there and only there. -/
theorem firstReplace_at :
    ∀ (s pat rep : List Char) (k : Nat), pat ≠ [] →
      (∀ j, j < k → ¬ pat.isPrefixOf (s.drop j) = true) →
      pat.isPrefixOf (s.drop k) = true →
      firstReplace s pat rep = s.take k ++ rep ++ s.drop (k + pat.length)
  | [], pat, rep, k, hpat, _, hocc => by
    rw [List.drop_nil] at hocc
    rw [isPrefixOf_nil_false hpat] at hocc
    cases hocc
  | c :: cs, pat, rep, 0, _, _, hocc => by
    unfold firstReplace
    rw [if_pos (by exact hocc)]
    simp
  | c :: cs, pat, rep, k + 1, hpat, hfirst, hocc => by
    unfold firstReplace
    rw [if_neg (by simpa using hfirst 0 (by omega))]
    have ih := firstReplace_at cs pat rep k hpat
      (fun j hj => hfirst (j + 1) (by omega)) hocc
    rw [ih]
    have e : k + 1 + pat.length = (k + pat.length) + 1 := by omega
    rw [e]
    rfl

/-- An occurrence pins the characters of `s` along the pattern. -/
theorem occursAt_getD {s pat : String} {i : Nat} (hocc : occursAt s pat i)
    (hpat : pat.data ≠ []) :
    i + pat.data.length ≤ s.data.length ∧
      ∀ j, j < pat.data.length → ∀ d : Char,
        s.data.getD (i + j) d = pat.data.getD j d := by
  have hpre : pat.data <+: s.data.drop i := List.isPrefixOf_iff_prefix.mp hocc
  have hlen : pat.data.length ≤ s.data.length - i := by
    have := hpre.length_le
    simpa using this
  have hplen : 0 < pat.data.length := List.length_pos.mpr hpat
  have hbound : i + pat.data.length ≤ s.data.length := by omega
  refine ⟨hbound, ?_⟩
  obtain ⟨t, ht⟩ := hpre
  have hsplit : s.data = s.data.take i ++ (pat.data ++ t) := by
    rw [ht, List.take_append_drop]
  intro j hj d
  have hti : (s.data.take i).length = i := by
    rw [List.length_take]
    omega
  conv =>
    lhs
    rw [hsplit]
  rw [List.getD_append_right _ _ _ _ (by omega), hti]
  have e : i + j - i = j := by omega
  rw [e, List.getD_append _ _ _ _ hj]

theorem getD_take {l : List Char} {n j : Nat} (hj : j < n) (d : Char) :
    (l.take n).getD j d = l.getD j d := by
  simp only [List.getD_eq_getElem?_getD, List.getElem?_take]
  rw [if_pos hj]
/-! ## Claim theorems -/

/-- C2 (code bug): with two chunks, two workers and the completion order
"worker 0 first, then worker 1", the parallel pipeline's output is `["b"]`
for the input `["b", "a"]`: the multiset of non-blank output lines does not
equal the multiset of non-blank input lines — the scheduler reads the next
chunk index from `completedChunks`, gives chunk 0 to both workers, and
resolves before chunk 1 is ever sorted. -/
theorem sortChunks_parallel_loses_lines :
    pipelinePar 1 2 [0, 1] ["b", "a"] = Except.ok ["b"] ∧
    Multiset.ofList (["b", "a"].filter nonBlank) ≠ Multiset.ofList ["b"] := by
  decide

/-- C3 (code bug): in parallel mode with two chunks and two workers, the
start-up loop dispatches chunk 0 to both workers (`chunkIndex` is read from
the not-yet-incremented `completedChunks`), chunk 1 is never dispatched
before both complete, and the promise resolves with a results array holding
only the slot for chunk 0. -/
theorem sortChunks_scheduler_double_dispatch :
    (schedInit 2 2).workers.map WorkerSlot.assigned = [0, 0] ∧
    (schedInit 2 2).workers.map WorkerSlot.busy = [true, true] ∧
    (runSched 2 2 [0, 1]).resolvedWith = some [some 0] := by
  decide

/-- C4 (counterexample): on an empty input the pipeline does not complete
without error — the splitter produces zero chunks and `_kWayMerge` then
throws "no valid chunk files found for merging". -/
theorem empty_input_merge_error :
    externalSortSeqModel 8 [] = Except.error "no valid chunk files found for merging" ∧
    splitChunks 8 [] = [] := by
  decide

/-- C4 (amended): for an empty input the splitter produces zero chunks and
`sortChunks` returns an empty list, but the merge step throws
"no valid chunk files found for merging"; the pipeline propagates that error
and writes no output. -/
theorem empty_input_pipeline_behavior (chunkSize : Nat) :
    splitChunks chunkSize [] = [] ∧
    sortChunksSeq (splitChunks chunkSize []) = [] ∧
    externalSortSeqModel chunkSize []
      = Except.error "no valid chunk files found for merging" :=
  ⟨rfl, rfl, rfl⟩

/-- C5 (counterexample): the inline `Sorter.sortChunk` does not discard the
line that is empty after trimming — it keeps it (and it sorts first), unlike
the worker's `sortChunk`. -/
theorem inline_sorter_keeps_blank_lines :
    sorterSortChunkLines ["", "a"] = ["", "a"] ∧ nonBlank "" = false ∧
    workerSortChunkLines ["", "a"] = ["a"] := by
  decide

/-- C9 (counterexample): `_kWayMerge` on one single-line chunk writes one
line and logs `linesWritten = 1`, but resolves with no value (its body has no
`return` statement), not with the count. -/
theorem kWayMerge_resolves_undefined :
    kWayMergeRun [["a"]] = Except.ok (["a"], none) ∧
    linesWritten [["a"]] = 1 ∧
    kWayMergeRun [["a"]] ≠ Except.ok (["a"], some (linesWritten [["a"]])) := by
  decide

/-- C8 (counterexample): with `maxMemoryBytes = 1` the derived chunk size is
`0`, the single line "a" is flushed as a threshold chunk (its weight `2`
reaches the threshold), and it exceeds that threshold by its full last-line
size, not by less. -/
theorem splitter_excess_bound_fails_at_budget_one :
    chunkSizeBytes 1 = 0 ∧
    splitChunks (chunkSizeBytes 1) ["a"] = [["a"]] ∧
    chunkSizeBytes 1 ≤ chunkWeight ["a"] ∧
    ¬ chunkWeight ["a"] < chunkSizeBytes 1 + lineSize (["a"].getLastD "") := by
  decide

/-- C6 (counterexample): with `maxOpenFiles = 1` a hierarchical merge level
does not reduce the chunk count (each non-final singleton group is "merged"
into one file and the final singleton passed through), so the level loop
never reaches a single file. -/
theorem hierarchical_merge_stalls_at_fanin_one :
    (levelStep 1 (fun g _ => mergedName "tmp" 1 g) ["a", "b"]).length = 2 ∧
    (hierarchicalMergePaths 1 "tmp" ["a", "b"]).1.length = 2 := by
  decide
/-- C5 (amended): both chunk sorters sort with the codepoint comparator, but
only the worker discards lines that are empty after trimming: the inline
`Sorter.sortChunk` writes every line of the chunk in sorted order, while the
worker writes the sorted non-blank lines — and a chunk with no non-blank
line yields a file holding a single empty line (`join("\n") + "\n"`). -/
theorem chunk_sorters_behavior (chunk : List String) :
    sortedLines (sorterSortChunkLines chunk) ∧
    List.Perm (sorterSortChunkLines chunk) chunk ∧
    sortedLines (workerSortChunkLines chunk) ∧
    (chunk.filter nonBlank = [] → workerSortChunkLines chunk = [""]) ∧
    (chunk.filter nonBlank ≠ [] →
      List.Perm (workerSortChunkLines chunk) (chunk.filter nonBlank)) := by
  refine ⟨jsSortLines_sorted chunk, jsSortLines_perm chunk, ?_, ?_, ?_⟩
  · simp only [workerSortChunkLines]
    by_cases he : (jsSortLines (chunk.filter nonBlank)).isEmpty = true
    · rw [if_pos he]
      exact List.pairwise_singleton _ _
    · rw [if_neg he]
      exact jsSortLines_sorted _
  · intro hf
    simp only [workerSortChunkLines]
    have e : jsSortLines (chunk.filter nonBlank) = [] := by rw [hf]; rfl
    rw [e]
    rfl
  · intro hf
    simp only [workerSortChunkLines]
    have hp := jsSortLines_perm (chunk.filter nonBlank)
    have hne : jsSortLines (chunk.filter nonBlank) ≠ [] := by
      intro hnil
      rw [hnil] at hp
      exact hf (hp.symm.eq_nil)
    rw [if_neg (by simpa [List.isEmpty_iff] using hne)]
    exact hp

/-- C5 amended, exercised: a chunk with a blank and two unsorted lines. -/
theorem chunk_sorters_behavior_witness :
    List.Perm (workerSortChunkLines ["", "b", "a"]) (["", "b", "a"].filter nonBlank) ∧
    workerSortChunkLines [""] = [""] :=
  ⟨(chunk_sorters_behavior ["", "b", "a"]).2.2.2.2 (by decide),
   (chunk_sorters_behavior [""]).2.2.2.1 (by decide)⟩

/-- C8 (amended): provided the memory budget is at least 2 bytes (so the
derived chunk size `floor(0.8 * maxMemoryBytes)` is positive), every chunk
the splitter flushes at the threshold has accumulated size at least the
derived chunk size and exceeds it by less than the byte size of its last
line (the check runs after each append); chunks below the threshold can only
be the final remainder, and no chunk is empty. -/
theorem splitter_chunk_size_invariant (m : Nat) (hm : 2 ≤ m) (lines : List String) :
    (∀ c ∈ (splitChunks (chunkSizeBytes m) lines).dropLast,
      chunkSizeBytes m ≤ chunkWeight c) ∧
    (∀ c ∈ splitChunks (chunkSizeBytes m) lines, c ≠ [] ∧
      (chunkSizeBytes m ≤ chunkWeight c →
        chunkWeight c < chunkSizeBytes m + lineSize (c.getLastD ""))) := by
  have h := splitLoop_spec (chunkSizeBytes m) (chunkSizeBytes_pos hm) lines [] 0 rfl
    (chunkSizeBytes_pos hm)
  exact ⟨h.2, h.1⟩

/-- C8 amended, exercised: budget 10 derives chunk size 8; the 8-byte line
"aaaaaaa" is flushed at the threshold and exceeds it by less than itself. -/
theorem splitter_chunk_size_invariant_witness :
    chunkSizeBytes 10 ≤ chunkWeight ["aaaaaaa"] ∧
    chunkWeight ["aaaaaaa"] < chunkSizeBytes 10 + lineSize (["aaaaaaa"].getLastD "") := by
  have h := splitter_chunk_size_invariant 10 (by decide) ["aaaaaaa", "bb", "cc"]
  have h1 := h.1 ["aaaaaaa"] (by decide)
  exact ⟨h1, (h.2 ["aaaaaaa"] (by decide)).2 h1⟩

/-- C9 (amended): on a non-empty chunk list `_kWayMerge` writes the merged
lines and resolves with no value (`undefined`; its doc comment says
`Promise<void>`); the count of written lines is tracked in `linesWritten`
(and logged) and equals the number of lines emitted from the heap, but it is
not returned. -/
theorem kWayMerge_return_behavior (chunks : List (List String)) (hne : chunks ≠ []) :
    kWayMergeRun chunks = Except.ok (mergeLines chunks, none) ∧
    linesWritten chunks = (mergeLines chunks).length := by
  constructor
  · unfold kWayMergeRun
    rw [if_neg (by simpa [List.isEmpty_iff] using hne)]
    rfl
  · unfold linesWritten mergeLines
    simpa using mergeCountF_spec (mergeFuel chunks) (initHeap chunks) 0

/-- C9 amended, exercised on a single one-line chunk. -/
theorem kWayMerge_return_behavior_witness :
    kWayMergeRun [["a"]] = Except.ok (mergeLines [["a"]], none) ∧
    linesWritten [["a"]] = (mergeLines [["a"]]).length :=
  kWayMerge_return_behavior [["a"]] (by decide)

/-- C6 (amended): for any `maxOpenFiles ≥ 2` (the default is 100) each
hierarchical merge level strictly reduces the chunk count, and on more than
one chunk the level loop ends with exactly one remaining file — the one then
renamed to the output path — after exactly `⌈log_maxOpenFiles(numChunks)⌉`
levels; with `maxOpenFiles = 1` (allowed by the claim's "every bound") no
level shrinks and the loop never terminates. -/
theorem hierarchical_merge_terminates (m : Nat) (tempDir : String)
    (lvl : List String) (hm : 2 ≤ m) (hlen : 1 < lvl.length) :
    (∀ (lvl2 : List String) (f : Nat → List String → String),
      1 < lvl2.length → (levelStep m f lvl2).length < lvl2.length) ∧
    (hierarchicalMergePaths m tempDir lvl).1.length = 1 ∧
    (hierarchicalMergePaths m tempDir lvl).2 = Nat.clog m lvl.length := by
  refine ⟨fun lvl2 f h2 => levelStep_length_lt m hm f lvl2 h2, ?_⟩
  have hne : lvl ≠ [] := by
    intro h
    rw [h] at hlen
    simp at hlen
  have h := hierLoopF_run hm (fun li g _ => mergedName tempDir li g) lvl.length lvl 0
    hne (clog_le_self hm lvl.length)
  refine ⟨h.1, ?_⟩
  show (hierLoopF m (fun li g _ => mergedName tempDir li g) lvl.length lvl 0).2
      = Nat.clog m lvl.length
  rw [h.2]
  omega

/-- C6 amended, exercised: three chunks with fan-in 2 merge in ⌈log₂ 3⌉ = 2
levels down to one file. -/
theorem hierarchical_merge_terminates_witness :
    (hierarchicalMergePaths 2 "tmp" ["a", "b", "c"]).1.length = 1 ∧
    (hierarchicalMergePaths 2 "tmp" ["a", "b", "c"]).2 = Nat.clog 2 3 :=
  ⟨(hierarchical_merge_terminates 2 "tmp" ["a", "b", "c"] (by decide) (by decide)).2.1,
   (hierarchical_merge_terminates 2 "tmp" ["a", "b", "c"] (by decide) (by decide)).2.2⟩

/-- C1: for every list of sorted chunk files, the line sequence the k-way
merge writes to the output is non-decreasing under codepoint comparison; in
particular merging `["a","d"]`, `["b","e"]`, `["c","f"]` emits exactly
`["a","b","c","d","e","f"]`. -/
theorem kWayMerge_output_sorted :
    (∀ chunks : List (List String), (∀ c ∈ chunks, sortedLines c) →
      sortedLines (mergeLines chunks)) ∧
    mergeLines [["a", "d"], ["b", "e"], ["c", "f"]] = ["a", "b", "c", "d", "e", "f"] := by
  constructor
  · intro chunks hc
    exact (mergeLoopF_sorted (mergeFuel chunks) (initHeap chunks) (initHeap_inv chunks hc)).1
  · decide

/-- C1 exercised on the claim's own three sorted chunks. -/
theorem kWayMerge_output_sorted_witness :
    sortedLines (mergeLines [["a", "d"], ["b", "e"], ["c", "f"]]) :=
  kWayMerge_output_sorted.1 [["a", "d"], ["b", "e"], ["c", "f"]] (by decide)

/-- C7: on sorted chunks the initial heap satisfies the merge invariant (one
entry per reader, every entry with a non-null current line, heap-shaped);
`extractMin` on an invariant heap returns a live entry whose current line is
minimal among all entries; and one merge iteration (extract, advance,
conditionally re-insert) preserves the invariant — an exhausted reader is
never re-inserted. -/
theorem merge_heap_invariant :
    (∀ chunks : List (List String), (∀ c ∈ chunks, sortedLines c) →
      MergeInv (initHeap chunks)) ∧
    (∀ h : List Rdr, MergeInv h →
      (∀ r h1, extractMin rdrLt h = (some r, h1) →
        r.current.isSome = true ∧
        ∀ s ∈ h, lineLe (emittedLine r) (emittedLine s) = true) ∧
      (∀ out h2, mergeStep h = some (out, h2) → MergeInv h2)) := by
  constructor
  · exact fun chunks hc => initHeap_inv chunks hc
  · intro h inv
    constructor
    · intro r h1 hex
      have hne : h ≠ [] := by
        intro hnil
        subst hnil
        simp [extractMin] at hex
      have hfst := extractMin_fst rdrLt h hne
      rw [hex] at hfst
      have hr : r = hget h 0 := by
        injection hfst
      have hrmem : r ∈ h := by
        have hlen : 0 < h.length := List.length_pos.mpr hne
        rw [hr, hget_eq_getElem h 0 hlen]
        exact List.getElem_mem hlen
      refine ⟨(inv.2.1 r hrmem).1, ?_⟩
      intro s hs
      have hmin : rdrLt s (hget h 0) = false :=
        isHeap_min_mem rdrLt rdrLt_irrefl (fun _ _ _ => rdrLt_negtrans) h inv.1 s hs
      rw [← hr] at hmin
      exact rdrLt_false_le (inv.2.1 s hs).1 (inv.2.1 r hrmem).1 hmin
    · intro out h2 hstep
      exact (mergeStep_inv h inv out h2 hstep).1

/-- C7 exercised: the initial heap of two sorted chunks, and its state after
one merge step (extract "a", re-insert the advanced reader). -/
theorem merge_heap_invariant_witness :
    MergeInv (initHeap [["a", "c"], ["b"]]) ∧
    MergeInv [⟨1, some "b", []⟩, ⟨0, some "c", []⟩] := by
  have h1 := merge_heap_invariant.1 [["a", "c"], ["b"]] (by decide)
  refine ⟨h1, ?_⟩
  exact (merge_heap_invariant.2 (initHeap [["a", "c"], ["b"]]) h1).2 "a"
    [⟨1, some "b", []⟩, ⟨0, some "c", []⟩] (by decide)
/-- Occurrences beyond the string are impossible for the non-empty pattern,
so checking below the length settles all positions. -/
theorem no_occurrence_of_ballt {s pat : String} (hpat : pat.data ≠ [])
    (h : ∀ i, i < s.data.length → ¬ occursAt s pat i) : ∀ i, ¬ occursAt s pat i := by
  intro i hocc
  have hb := (occursAt_getD hocc hpat).1
  have hp : 0 < pat.data.length := List.length_pos.mpr hpat
  exact h i (by omega) hocc

/-- C10: `sortChunk` derives the sorted path with
`chunkPath.replace(".txt", ".sorted.txt")`, which replaces the FIRST
occurrence.  (a) When the only occurrence of ".txt" is the final suffix, the
result is the suffix convention (replace the trailing ".txt" by
".sorted.txt").  (b) When ".txt" also occurs earlier, the first occurrence
is replaced instead, so the sorted file gets a name different from the
suffix convention.  (c) With no occurrence at all the path is unchanged: the
sorted lines are written over the chunk file itself, the best-effort cleanup
then deletes that file, and the returned path names a deleted file. -/
theorem sortChunk_path_replacement (p : String) (fs : FileSys) :
    ((4 ≤ p.data.length ∧ occursAt p ".txt" (p.data.length - 4) ∧
        (∀ i, i < p.data.length - 4 → ¬ occursAt p ".txt" i)) →
      sortedChunkPathOf p
        = ⟨p.data.take (p.data.length - 4) ++ (".sorted.txt" : String).data⟩) ∧
    (((∃ i, i < p.data.length - 4 ∧ occursAt p ".txt" i) ∧
        occursAt p ".txt" (p.data.length - 4)) →
      sortedChunkPathOf p
        ≠ ⟨p.data.take (p.data.length - 4) ++ (".sorted.txt" : String).data⟩) ∧
    ((∀ i, ¬ occursAt p ".txt" i) →
      sortedChunkPathOf p = p ∧ (sortChunkRun fs p).2 = p ∧
        (sortChunkRun fs p).1 p = none) := by
  have hpatlen : (".txt" : String).data.length = 4 := by decide
  have hpatne : (".txt" : String).data ≠ [] := by decide
  have hreplen : (".sorted.txt" : String).data.length = 11 := by decide
  refine ⟨?_, ?_, ?_⟩
  · -- (a) unique final occurrence: the suffix convention
    rintro ⟨h4, hocc, hfirst⟩
    show (⟨firstReplace p.data (".txt" : String).data (".sorted.txt" : String).data⟩ : String)
        = ⟨p.data.take (p.data.length - 4) ++ (".sorted.txt" : String).data⟩
    have e := firstReplace_at p.data (".txt" : String).data (".sorted.txt" : String).data
      (p.data.length - 4) hpatne (fun j hj => hfirst j hj) hocc
    have e2 : p.data.length - 4 + (".txt" : String).data.length = p.data.length := by
      rw [hpatlen]
      omega
    rw [e, e2, List.drop_length, List.append_nil]
  · -- (b) an earlier occurrence wins: a different name
    rintro ⟨⟨i0, hi0, hocci⟩, hoccend⟩ hEq
    have hex : ∃ j, occursAt p ".txt" j := ⟨i0, hocci⟩
    have hKocc : occursAt p ".txt" (Nat.find hex) := Nat.find_spec hex
    have hKmin : ∀ j, j < Nat.find hex → ¬ occursAt p ".txt" j :=
      fun j hj => Nat.find_min hex hj
    have hKle : Nat.find hex ≤ i0 := Nat.find_min' hex hocci
    have hchars := occursAt_getD hKocc hpatne
    have hend := occursAt_getD hoccend hpatne
    have hKbound : Nat.find hex + 4 ≤ p.data.length := by
      have := hchars.1
      rw [hpatlen] at this
      exact this
    have hendbound : p.data.length - 4 + 4 ≤ p.data.length := by
      have := hend.1
      rw [hpatlen] at this
      exact this
    -- the earlier occurrence sits at least 8 characters before the end
    have hK8 : Nat.find hex + 8 ≤ p.data.length := by
      by_contra h8
      have hcases : p.data.length - 4 = Nat.find hex + 1 ∨
          p.data.length - 4 = Nat.find hex + 2 ∨
          p.data.length - 4 = Nat.find hex + 3 := by omega
      have hend0 := hend.2 0 (by rw [hpatlen]; omega) ' '
      rw [Nat.add_zero] at hend0
      rcases hcases with hd | hd | hd
      · rw [hd] at hend0
        have hc := hchars.2 1 (by rw [hpatlen]; omega) ' '
        rw [hc] at hend0
        exact absurd hend0 (by decide)
      · rw [hd] at hend0
        have hc := hchars.2 2 (by rw [hpatlen]; omega) ' '
        rw [hc] at hend0
        exact absurd hend0 (by decide)
      · rw [hd] at hend0
        have hc := hchars.2 3 (by rw [hpatlen]; omega) ' '
        rw [hc] at hend0
        exact absurd hend0 (by decide)
    -- compare character K+1 of the two names
    have e := firstReplace_at p.data (".txt" : String).data (".sorted.txt" : String).data
      (Nat.find hex) hpatne hKmin hKocc
    have hdata := congrArg String.data hEq
    have hdata2 : p.data.take (Nat.find hex) ++ ((".sorted.txt" : String).data
        ++ p.data.drop (Nat.find hex + 4))
        = p.data.take (p.data.length - 4) ++ (".sorted.txt" : String).data := by
      have e4 : Nat.find hex + (".txt" : String).data.length = Nat.find hex + 4 := by
        rw [hpatlen]
      rw [← List.append_assoc, ← e4, ← e]
      exact hdata
    have hchar := congrArg (fun l => l.getD (Nat.find hex + 1) ' ') hdata2
    simp only at hchar
    have htakelen : (p.data.take (Nat.find hex)).length = Nat.find hex := by
      rw [List.length_take]
      omega
    rw [List.getD_append_right _ _ _ _ (by omega), htakelen,
      (by omega : Nat.find hex + 1 - Nat.find hex = 1),
      List.getD_append _ _ _ _ (by rw [hreplen]; omega)] at hchar
    have htakelen2 : (p.data.take (p.data.length - 4)).length = p.data.length - 4 := by
      rw [List.length_take]
      omega
    rw [List.getD_append _ _ _ _ (by rw [htakelen2]; omega),
      getD_take (by omega : Nat.find hex + 1 < p.data.length - 4)] at hchar
    have hc1 := hchars.2 1 (by rw [hpatlen]; omega) ' '
    rw [hc1] at hchar
    simp at hchar
  · -- (c) no occurrence: replace is the identity, and the returned path
    -- names the file the cleanup just deleted
    intro hno
    have e := firstReplace_no_occurrence p.data (".txt" : String).data
      (".sorted.txt" : String).data (fun i => hno i)
    have h1 : sortedChunkPathOf p = p := by
      show (⟨firstReplace p.data (".txt" : String).data (".sorted.txt" : String).data⟩
          : String) = p
      rw [e]
    refine ⟨h1, h1, ?_⟩
    show fsUnlink (fsWrite fs (sortedChunkPathOf p) _) p p = none
    simp [fsUnlink]

/-- C10 exercised: a chunk path with the suffix as only occurrence, one with
an earlier ".txt" in a directory name, and one with no ".txt" at all. -/
theorem sortChunk_path_replacement_witness :
    sortedChunkPathOf "tmp/chunk_000000.txt"
      = ⟨("tmp/chunk_000000.txt" : String).data.take
            (("tmp/chunk_000000.txt" : String).data.length - 4)
          ++ (".sorted.txt" : String).data⟩ ∧
    sortedChunkPathOf "a.txt/b.txt"
      ≠ ⟨("a.txt/b.txt" : String).data.take (("a.txt/b.txt" : String).data.length - 4)
          ++ (".sorted.txt" : String).data⟩ ∧
    sortedChunkPathOf "chunk0" = "chunk0" ∧
    (sortChunkRun (fun _ => some ["x"]) "chunk0").1 "chunk0" = none := by
  refine ⟨(sortChunk_path_replacement "tmp/chunk_000000.txt" (fun _ => none)).1
      ⟨by decide, by decide, by decide⟩,
    (sortChunk_path_replacement "a.txt/b.txt" (fun _ => none)).2.1
      ⟨⟨1, by decide, by decide⟩, by decide⟩, ?_, ?_⟩
  · exact ((sortChunk_path_replacement "chunk0" (fun _ => some ["x"])).2.2
      (no_occurrence_of_ballt (by decide) (by decide))).1
  · exact ((sortChunk_path_replacement "chunk0" (fun _ => some ["x"])).2.2
      (no_occurrence_of_ballt (by decide) (by decide))).2.2
end ExtSort
